import Mathlib

/-!
Verification of the Advent of Code 2023 solution scripts.

Each namespace `DayNN` below is a shallow embedding of the compute
functions of `src/NN/main.py`.  Python integers are modelled as `Int`
(or `Nat` where the source value is a count), Python lists as `List`,
dictionaries as association lists, and raised exceptions as `Except` /
`Option` results.  Definitions keep the source names.
-/

set_option maxHeartbeats 1600000

/-! ## Day 4 (src/04/main.py): scratchcards -/

namespace Day04

/-- `get_match_card`: the number of `numbers_you_have` that are present in
`winning_numbers` (sum of boolean indicators, multiplicity of
`numbers_you_have` counts). -/
def get_match_card (winning_numbers numbers_you_have : List Int) : Nat :=
  (numbers_you_have.map (fun num => if num ∈ winning_numbers then 1 else 0)).sum

/-- `get_card_score`: the Python source computes `int(2 ** (score - 1))`.
For `score = 0` the Python value is `int(2.0 ** (-1)) = int(0.5) = 0`
(0.5 is exactly representable, truncation toward zero); for `score ≥ 1`
it is the exact integer `2 ^ (score - 1)`. -/
def get_card_score (winning_numbers numbers_you_have : List Int) : Nat :=
  match get_match_card winning_numbers numbers_you_have with
  | 0 => 0
  | n + 1 => 2 ^ n

/-- `get_total_score` on the parsed cards (one `(winning, have)` pair per
input line): the sum of the card scores. -/
def get_total_score (cards : List (List Int × List Int)) : Nat :=
  (cards.map (fun card => get_card_score card.1 card.2)).sum

/-- The inner `for ind in range(copy_cards)` loop of
`get_total_number_cards`: add `num_copies` to the first `copy_cards`
entries of the queue, appending entries (also holding `num_copies`) once
the queue runs out. -/
def update_queue (queue : List Nat) (copy_cards num_copies : Nat) : List Nat :=
  match copy_cards, queue with
  | 0, q => q
  | k + 1, [] => List.replicate (k + 1) num_copies
  | k + 1, c :: q => (c + num_copies) :: update_queue q k num_copies

/-- One iteration of the card loop of `get_total_number_cards`: pop the
front of the queue (an empty queue means no earlier copies, `IndexError`
branch) to get this card's copy count, add it to the running total, and
propagate the copies to the next `matches` cards. -/
def card_step (state : List Nat × Nat) (match_count : Nat) : List Nat × Nat :=
  let num_copies := state.1.headD 0 + 1
  (update_queue state.1.tail match_count num_copies, state.2 + num_copies)

/-- `get_total_number_cards` on the parsed cards: fold the card loop over
the cards, starting from an empty queue and a zero total. -/
def get_total_number_cards (cards : List (List Int × List Int)) : Nat :=
  (cards.foldl
    (fun st card => card_step st (get_match_card card.1 card.2)) ([], 0)).2

/-- Reference copy count of card `i` (0-indexed) for the list `ms` of
per-card match counts: `c_i = 1 + sum of c_j over j < i with i ≤ j + m_j`
(card `j` wins one copy of each of the next `m_j` cards per copy held). -/
def ref_copy (ms : List Nat) (i : Nat) : Nat :=
  1 + ((List.range i).attach.map
    (fun j => if i ≤ j.1 + ms.getD j.1 0 then ref_copy ms j.1 else 0)).sum
termination_by i
decreasing_by exact List.mem_range.mp j.2

/-- Value that the queue holds at position `d` once the first `i` cards
are processed: the copies that cards `j < i` granted to card `i + d`
(card `j` reaches it when `i + d ≤ j + m_j`). -/
def queue_spec (ms : List Nat) (i d : Nat) : Nat :=
  ((List.range i).map
    (fun j => if i + d ≤ j + ms.getD j 0 then ref_copy ms j else 0)).sum

/-- Total number of cards accumulated once the first `i` cards are
processed. -/
def total_spec (ms : List Nat) (i : Nat) : Nat :=
  ((List.range i).map (ref_copy ms)).sum

/-- Lines printed by the `__main__` block of src/04/main.py: one line for
Part 1 and one line for Part 2. -/
def day04_main_lines (cards : List (List Int × List Int)) : List String :=
  let p1 := get_total_score cards
  let p2 := get_total_number_cards cards
  [s!"(Part 1) Total points for given cards is: {p1}",
   s!"(Part 2) Total number of cards obtained is: {p2}"]

end Day04

/-! ## Day 15 (src/15/main.py): holiday hash and lens boxes -/

namespace Day15

/-- One loop iteration of `holiday_hash`: add the character's ASCII code
and mask to 8 bits, then shift-add (`(v << 4) + v`) and mask again. -/
def holiday_hash_step (curr_value : Nat) (c : Char) : Nat :=
  let v := (c.toNat + curr_value) &&& 255
  ((v <<< 4) + v) &&& 255

/-- `holiday_hash`: fold `holiday_hash_step` over the characters of the
input string, starting from 0. -/
def holiday_hash (input_string : String) : Nat :=
  input_string.data.foldl holiday_hash_step 0

/-- The reference fold of the claim: start at 0 and for each character set
`v := ((v + code) * 17) mod 256`. -/
def holiday_hash_ref (input_string : String) : Nat :=
  input_string.data.foldl (fun v c => ((v + c.toNat) * 17) % 256) 0

/-- A lens box: an insertion-ordered association list from labels to focal
lengths (Python `OrderedDict`). -/
abbrev Box : Type := List (String × Int)

/-- `boxes[box_ind][label] = focal_length` on an `OrderedDict`: overwrite
in place when the label is present, append otherwise. -/
def box_insert (box : Box) (label : String) (focal_length : Int) : Box :=
  if box.any (fun p => p.1 = label) then
    box.map (fun p => if p.1 = label then (p.1, focal_length) else p)
  else box ++ [(label, focal_length)]

/-- `boxes[box_ind].pop(label, None)`: drop the entry with the given label
(no error when absent). -/
def box_pop (box : Box) (label : String) : Box :=
  box.filter (fun p => p.1 ≠ label)

/-- `holiday_hash_map` after the label/focal-length split of the step
string: index box `holiday_hash label` and insert or pop.  The Python
indexing `boxes[box_ind]` raises `IndexError` when out of bounds, modelled
as `none`. -/
def holiday_hash_map (boxes : List Box) (label : String)
    (focal_length : Int) : Option (List Box) :=
  let box_ind := holiday_hash label
  if _h : box_ind < boxes.length then
    let box := boxes.get ⟨box_ind, _h⟩
    if focal_length ≥ 0 then
      some (boxes.set box_ind (box_insert box label focal_length))
    else
      some (boxes.set box_ind (box_pop box label))
  else none

end Day15

/-! ## Shared input scanning (re.findall on digit runs) -/

/-- Numeric value of a run of digit characters. -/
def digits_to_nat (ds : List Char) : Nat :=
  ds.foldl (fun acc c => acc * 10 + (c.toNat - 48)) 0

/-- Scanner for `re.findall(r"\d+", s)`: the maximal runs of digit
characters.  Each step consumes at least one character, so the character
count is enough fuel (the fuel only makes the recursion structural). -/
def find_nats_go : Nat → List Char → List Int
  | 0, _ => []
  | _, [] => []
  | fuel + 1, c :: rest =>
    if c.isDigit then
      (digits_to_nat ((c :: rest).takeWhile Char.isDigit) : Int)
        :: find_nats_go fuel (rest.dropWhile Char.isDigit)
    else find_nats_go fuel rest

/-- `re.findall(r"\d+", s)` followed by `int(...)`. -/
def find_nats (l : List Char) : List Int := find_nats_go l.length l

/-- Scanner for `re.findall(r"-?\d+", s)`: maximal digit runs, taking in a
minus sign that immediately precedes the digits. -/
def find_ints_go : Nat → List Char → List Int
  | 0, _ => []
  | _, [] => []
  | fuel + 1, c :: rest =>
    if c.isDigit then
      (digits_to_nat ((c :: rest).takeWhile Char.isDigit) : Int)
        :: find_ints_go fuel (rest.dropWhile Char.isDigit)
    else if c = '-' && (match rest with | r :: _ => r.isDigit | [] => false) then
      -(digits_to_nat (rest.takeWhile Char.isDigit) : Int)
        :: find_ints_go fuel (rest.dropWhile Char.isDigit)
    else find_ints_go fuel rest

/-- `re.findall(r"-?\d+", s)` followed by `int(...)`. -/
def find_ints (l : List Char) : List Int := find_ints_go l.length l

/-! ## Day 5 (src/05/main.py): seed maps -/

namespace Day05

/-- One row `[destination_start, source_start, range_len]` of a parsed
map. -/
structure MapRow where
  destination_start : Int
  source_start : Int
  range_len : Int
deriving DecidableEq

/-- `apply_map_number`: the first row whose source interval covers the
number maps it; with no matching row the number maps to itself. -/
def apply_map_number (map_array : List MapRow) (source_number : Int) : Int :=
  match map_array with
  | [] => source_number
  | row :: rest =>
    if row.source_start ≤ source_number ∧
        source_number < row.source_start + row.range_len then
      row.destination_start + (source_number - row.source_start)
    else apply_map_number rest source_number

/-- The inner `for source_range in source_ranges` loop of
`apply_map_range`, for one row: returns the pair of the mapped ranges
appended to `mapped_numbers` and the leftover `new_source_ranges`, each in
emission order. -/
def apply_row_ranges (row : MapRow) :
    List (Int × Int) → List (Int × Int) × List (Int × Int)
  | [] => ([], [])
  | source_range :: rest =>
    let q := apply_row_ranges row rest
    if row.source_start + row.range_len - 1 < source_range.1 ∨
        source_range.1 + source_range.2 - 1 < row.source_start then
      (q.1, source_range :: q.2)
    else
      let mapped_start := max row.source_start source_range.1
      let mapped_end := min (row.source_start + row.range_len - 1)
        (source_range.1 + source_range.2 - 1)
      let mapped_len := mapped_end - mapped_start + 1
      let mapped :=
        (mapped_start + row.destination_start - row.source_start, mapped_len)
      if mapped_start = source_range.1 ∧ mapped_len = source_range.2 then
        (mapped :: q.1, q.2)
      else if mapped_start = source_range.1 then
        (mapped :: q.1, (mapped_end + 1, source_range.2 - mapped_len) :: q.2)
      else if mapped_end = source_range.1 + source_range.2 - 1 then
        (mapped :: q.1, (source_range.1, source_range.2 - mapped_len) :: q.2)
      else
        (mapped :: q.1,
          (source_range.1, mapped_start - source_range.1)
            :: (mapped_end + 1, source_range.1 + source_range.2 - 1 - mapped_end)
            :: q.2)

/-- `apply_map_range`: the rows are processed in order; each row consumes
the current source ranges, emitting mapped ranges (accumulated across the
rows, never revisited) and leftovers (fed to the next row).  Leftovers
surviving every row are appended after the mapped ranges. -/
def apply_map_range (map_array : List MapRow)
    (source_ranges : List (Int × Int)) : List (Int × Int) :=
  match map_array with
  | [] => source_ranges
  | row :: rest =>
    let q := apply_row_ranges row source_ranges
    q.1 ++ apply_map_range rest q.2

/-- Applying every map in order to one seed number (the inner loop of
`get_min_seed_mapping_number`, with `read_map` already done). -/
def chain_apply (map_arrays : List (List MapRow)) (seed : Int) : Int :=
  map_arrays.foldl (fun s m => apply_map_number m s) seed

/-- Minimum tracking starting from `inf` (modelled as `none`), updating
whenever the new value is strictly smaller, as both source functions do. -/
def min_fold (xs : List Int) : Option Int :=
  xs.foldl
    (fun acc v =>
      match acc with
      | none => some v
      | some a => if a > v then some v else some a)
    none

/-- `get_min_seed_mapping_number` with the maps already parsed: the
minimum over the seeds of the fully mapped value (`none` is the initial
`inf`, returned only for an empty seed list). -/
def get_min_seed_mapping_number (seed_numbers : List Int)
    (map_arrays : List (List MapRow)) : Option Int :=
  min_fold (seed_numbers.map (chain_apply map_arrays))

/-- `get_min_seed_mapping_ranges` with the maps already parsed: fold
`apply_map_range` over the maps, then take the minimal start of the final
ranges (`min(..., key=tup[0])[0]`; `none` models the `ValueError` that
`min` raises on an empty list). -/
def get_min_seed_mapping_ranges (seed_ranges : List (Int × Int))
    (map_arrays : List (List MapRow)) : Option Int :=
  min_fold
    ((map_arrays.foldl (fun rs m => apply_map_range m rs) seed_ranges).map
      Prod.fst)

/-- The individual seed numbers covered by a `(start, len)` range. -/
def expand_range (r : Int × Int) : List Int :=
  (List.range r.2.toNat).map (fun (i : Nat) => r.1 + (i : Int))

/-- All seed numbers contained in any of the ranges. -/
def expand_ranges (rs : List (Int × Int)) : List Int :=
  rs.flatMap expand_range

/-- The consecutive-pair interpretation of the parsed seed numbers (the
list comprehension over `range(0, len, 2)`, reached only on even
length). -/
def pair_up : List Int → List (Int × Int)
  | a :: b :: rest => (a, b) :: pair_up rest
  | _ => []

/-- A number `n` lies in one of the `(start, len)` ranges. -/
def covers (rs : List (Int × Int)) (n : Int) : Prop :=
  ∃ r ∈ rs, r.1 ≤ n ∧ n ≤ r.1 + r.2 - 1

/-- A number lies in the source interval of a map row. -/
def in_row (row : MapRow) (n : Int) : Prop :=
  row.source_start ≤ n ∧ n ≤ row.source_start + row.range_len - 1

instance in_row_dec (row : MapRow) (n : Int) : Decidable (in_row row n) :=
  decidable_of_iff
    (row.source_start ≤ n ∧ n ≤ row.source_start + row.range_len - 1)
    Iff.rfl

/-- `get_seed_numbers`: parse all numbers of the seed line; with
`is_range` set and an odd count, emit a warning (third component) and fall
back to `is_range = False`.  The first component is the flat list
(`Sum.inl`) or the paired list (`Sum.inr`), the second the returned
`is_range` flag. -/
def get_seed_numbers (seed_string : String) (is_range : Bool) :
    (List Int ⊕ List (Int × Int)) × Bool × Bool :=
  let seed_num_read := find_nats seed_string.data
  let warned := decide (seed_num_read.length % 2 ≠ 0) && is_range
  let is_range2 := if warned then false else is_range
  if is_range2 then (Sum.inr (pair_up seed_num_read), is_range2, warned)
  else (Sum.inl seed_num_read, is_range2, warned)

end Day05

/-! ## Day 7 (src/07/main.py): camel cards -/

namespace Day07

/-- The module-level mutable `CARD_VALUE` table, threaded explicitly as
state below: an association list from card characters to values. -/
def CARD_VALUE : List (Char × Int) :=
  [('A', 14), ('K', 13), ('Q', 12), ('J', 11), ('T', 10), ('9', 9),
   ('8', 8), ('7', 7), ('6', 6), ('5', 5), ('4', 4), ('3', 3), ('2', 2)]

/-- Dictionary lookup `cv[c]` (`none` models the `KeyError`). -/
def dict_get (cv : List (Char × Int)) (c : Char) : Option Int :=
  (cv.find? (fun p => p.1 == c)).map (fun p => p.2)

/-- Dictionary assignment `cv[c] = v`: overwrite in place when present,
append otherwise. -/
def dict_set (cv : List (Char × Int)) (c : Char) (v : Int) :
    List (Char × Int) :=
  if cv.any (fun p => p.1 == c) then
    cv.map (fun p => if p.1 == c then (p.1, v) else p)
  else cv ++ [(c, v)]

/-- `min(cv.values())`.  Python `min` raises on an empty dict; the base
`CARD_VALUE` table always has its thirteen entries, so the 0 default is
never reached from `get_winnings`. -/
def values_min (cv : List (Char × Int)) : Int :=
  match cv.map (fun p => p.2) with
  | [] => 0
  | v :: vs => vs.foldl min v

/-- `sum(target == h for h in l)`. -/
def count_eq (target : Char) (l : List Char) : Nat :=
  (l.map (fun h => if h == target then 1 else 0)).sum

/-- `len(set(hand))`. -/
def distinct_count (l : List Char) : Nat :=
  l.dedup.length

/-- `get_hand_type`: hand type from the number of distinct characters,
disambiguated by counting repetitions of the first (and second)
character.  Unlisted match cases keep the initial `hand_type = 0`. -/
def get_hand_type (hand : List Char) : Nat :=
  match distinct_count hand with
  | 1 => 6
  | 2 =>
    match count_eq (hand.headD ' ') hand.tail with
    | 0 | 3 => 5
    | 1 | 2 => 4
    | _ => 0
  | 3 =>
    match count_eq (hand.headD ' ') hand.tail with
    | 2 => 3
    | 1 => 2
    | 0 =>
      match count_eq (hand.tail.headD ' ') hand.tail.tail with
      | 2 | 0 => 3
      | 1 => 2
      | _ => 0
    | _ => 0
  | 4 => 1
  | _ => 0

/-- `get_hand_type_joker`: with no joker in the hand fall back to
`get_hand_type`; otherwise drop the joker characters
(`"".join(hand.split(joker))`) and classify by the distinct count of the
remainder. -/
def get_hand_type_joker (hand : List Char) (joker : Option Char) : Nat :=
  match joker with
  | none => get_hand_type hand
  | some j =>
    if j ∈ hand then
      let hand_no_joker := hand.filter (fun h => h != j)
      match distinct_count hand_no_joker with
      | 0 | 1 => 6
      | 2 =>
        if count_eq (hand_no_joker.headD ' ') hand_no_joker = 2 ∧
            hand_no_joker.length = 4 then 4
        else 5
      | 3 => 3
      | 4 => 1
      | _ => 0
    else get_hand_type hand

/-- The card-by-card loop of `compare_hands` over `zip(hand_a, hand_b)`;
a missing card raises `KeyError` (modelled as `Except.error`), the sign of
the first differing value is returned (`int(copysign(1, d))` with
`d ≠ 0`). -/
def compare_cards (cv : List (Char × Int)) :
    List (Char × Char) → Except Unit Int
  | [] => .ok 0
  | (card_a, card_b) :: rest =>
    match dict_get cv card_a with
    | none => .error ()
    | some va =>
      match dict_get cv card_b with
      | none => .error ()
      | some vb =>
        if va ≠ vb then .ok (if va > vb then 1 else -1)
        else compare_cards cv rest

/-- `compare_hands`: compare the joker-aware hand types, then the card
values from the left, reading the (possibly mutated) `CARD_VALUE` state
`cv`. -/
def compare_hands (cv : List (Char × Int)) (hand_a hand_b : List Char)
    (joker : Option Char) : Except Unit Int :=
  let type_a := get_hand_type_joker hand_a joker
  let type_b := get_hand_type_joker hand_b joker
  if type_a ≠ type_b then .ok (if type_a > type_b then 1 else -1)
  else compare_cards cv (hand_a.zip hand_b)

/-- Stable insertion of one `(hand, bid)` pair into an already sorted
list, using the comparator (the hand is the sort key); comparator
exceptions propagate. -/
def insert_hand (cv : List (Char × Int)) (joker : Option Char)
    (x : List Char × Int) :
    List (List Char × Int) → Except Unit (List (List Char × Int))
  | [] => .ok [x]
  | y :: rest => do
    let c ← compare_hands cv x.1 y.1 joker
    if c ≤ 0 then .ok (x :: y :: rest)
    else do
      let r ← insert_hand cv joker x rest
      .ok (y :: r)

/-- Model of `ranked_hands.sort(key=cmp_to_key(...))`: a stable
comparator sort (Python's sort is stable, so the sorted list is uniquely
determined when the comparator is a consistent ordering); comparator
exceptions propagate as they do in Python. -/
def sort_hands (cv : List (Char × Int)) (joker : Option Char) :
    List (List Char × Int) → Except Unit (List (List Char × Int))
  | [] => .ok []
  | x :: rest => do
    let r ← sort_hands cv joker rest
    insert_hand cv joker x r

/-- `sum(rank * bid)` over the sorted hands, ranks starting at 1. -/
def sum_winnings (ranked : List (List Char × Int)) : Int :=
  (List.enumFrom 1 ranked).foldl (fun acc p => acc + (p.1 : Int) * p.2.2) 0

/-- `get_winnings` with the `CARD_VALUE` state threaded explicitly and the
input file already parsed into `(hand, bid)` lines: first the joker entry
of the table is set to `min(values) - 1` (the module-level mutation),
then the hands are ranked by the comparator sort and the rank-weighted
bids summed. -/
def get_winnings (cv : List (Char × Int)) (lines : List (List Char × Int))
    (joker : Option Char) : List (Char × Int) × Except Unit Int :=
  let cv2 :=
    match joker with
    | none => cv
    | some j => dict_set cv j (values_min cv - 1)
  (cv2,
    match sort_hands cv2 joker lines with
    | .error e => .error e
    | .ok ranked => .ok (sum_winnings ranked))

end Day07

/-! ## Day 9 (src/09/main.py): sequence extrapolation -/

namespace Day09

/-- `diff_step`: consecutive differences `out[i] = seq[i+1] - seq[i]`
(via `zip(seq[1:], seq[:-1])`).  The `ValueError` the source raises on a
one-element sequence is handled at the call site in `get_diffs`. -/
def diff_step (seq : List Int) : List Int :=
  List.zipWith (fun s2 s1 => s2 - s1) seq.tail seq

/-- `sum(abs(num) for num in seq)`, the loop guard of `get_diffs`. -/
def sum_abs (seq : List Int) : Nat :=
  (seq.map Int.natAbs).sum

/-- The loop of `get_diffs`, made structurally recursive on a fuel
argument: each iteration shortens the sequence by one, so the initial
length is enough fuel and the fuel-0 fallback is never reached from
`get_diffs`. -/
def get_diffs_go : Nat → List Int → Bool → Option (List Int)
  | fuel, seq, backward =>
    if sum_abs seq = 0 then some []
    else if seq.length = 1 then none
    else
      match fuel with
      | 0 => none
      | fuel + 1 =>
        match get_diffs_go fuel (diff_step seq) backward with
        | none => none
        | some rest =>
          some ((if backward then seq.headD 0 else seq.getLastD 0) :: rest)

/-- `get_diffs`: repeatedly apply `diff_step` until an all-zero sequence
is reached, collecting the last element of each level (the first element
instead when `backward` is true).  `none` models the `ValueError` that
`diff_step` raises when a one-element nonzero sequence is reached. -/
def get_diffs (seq : List Int) (backward : Bool) : Option (List Int) :=
  get_diffs_go seq.length seq backward

/-- The first `n` values yielded by the generator `gen_ones(alternating)`:
all `1` when not alternating, `1, -1, 1, -1, ...` when alternating. -/
def gen_ones_list (alternating : Bool) (n : Nat) : List Int :=
  (List.range n).map (fun i => if alternating ∧ i % 2 = 1 then -1 else 1)

/-- `get_next_element`: parse the signed integers of the line, build the
difference levels with `get_diffs`, and return the sum of the levels
weighted by `gen_ones` (direct sum forward, alternating sum backward). -/
def get_next_element (seq : String) (backward : Bool) : Option Int :=
  match get_diffs (find_ints seq.data) backward with
  | none => none
  | some diff_seq =>
    some (List.zipWith (fun alt num => alt * num)
      (gen_ones_list backward diff_seq.length) diff_seq).sum

/-- Specification side: the `d`-fold iterated difference of a sequence. -/
def iter_diff (d : Nat) (seq : List Int) : List Int :=
  diff_step^[d] seq

/-- Sum of the last elements of the difference levels `0 .. d-1`. -/
def lasts_sum (seq : List Int) (d : Nat) : Int :=
  ((List.range d).map (fun k => (iter_diff k seq).getLastD 0)).sum

/-- Alternating sum of the first elements of the difference levels
`0 .. d-1`. -/
def heads_alt_sum (seq : List Int) (d : Nat) : Int :=
  ((List.range d).map (fun k => (-1 : Int) ^ k * (iter_diff k seq).headD 0)).sum

/-- The alternating sum of a list, `x0 - x1 + x2 - ...`. -/
def alt_sum : List Int → Int
  | [] => 0
  | x :: xs => x - alt_sum xs

end Day09

/-! ## Day 8 (src/08/main.py): network traversal -/

namespace Day08

/-- The exceptions the traversal can raise: `KeyError` from a dictionary
lookup of a node that is not a key, `ValueError` from the loop
detection. -/
inductive PyErr where
  | keyError
  | valueError
deriving DecidableEq

/-- The parsed network map: `{node: (node_left, node_right)}`, as an
association list (`read_map` keeps one entry per node). -/
abbrev NetworkMap := List (String × String × String)

/-- The keys of the network map. -/
def map_keys (network_map : NetworkMap) : List String :=
  network_map.map (fun e => e.1)

/-- Dictionary lookup `network_map[node]` (`none` is a `KeyError`). -/
def map_lookup (network_map : NetworkMap) (node : String) :
    Option (String × String) :=
  (network_map.find? (fun e => e.1 == node)).map (fun e => e.2)

/-- One step of the path: move every current node left (`'L'`) or right
(any other character) through the map
(`ind_step = 0 if step == "L" else 1`); the list comprehension raises
`KeyError` at the first missing node. -/
def step_nodes (network_map : NetworkMap) (step : Char) :
    List String → Except PyErr (List String)
  | [] => .ok []
  | node :: rest =>
    match map_lookup network_map node with
    | none => .error .keyError
    | some lr =>
      match step_nodes network_map step rest with
      | .error e => .error e
      | .ok next => .ok ((if step = 'L' then lr.1 else lr.2) :: next)

/-- `go_path_one`: follow the path once from the given configuration.
Before each step the current configuration is tested against the end set
(`set(current) <= set(end)`); on a hit the function returns `end_nodes`
itself together with the number of steps already taken, otherwise the
configuration after the whole pass with the path length. -/
def go_path_one (network_map : NetworkMap) (end_nodes : List String) :
    List Char → List String → Except PyErr (List String × Nat)
  | [], current_nodes => .ok (current_nodes, 0)
  | step :: rest, current_nodes =>
    if ∀ n ∈ current_nodes, n ∈ end_nodes then .ok (end_nodes, 0)
    else
      match step_nodes network_map step current_nodes with
      | .error e => .error e
      | .ok next =>
        match go_path_one network_map end_nodes rest next with
        | .error e => .error e
        | .ok q => .ok (q.1, q.2 + 1)

/-- The `while` loop of `go_path`, structural on a fuel argument (`none`
means the fuel ran out; the termination theorem below produces enough
fuel).  `current_nodes_list` is the list of configurations seen at the
whole-pass boundaries; a repeat raises `ValueError`. -/
def go_path_go (network_map : NetworkMap) (network_path : List Char)
    (end_nodes : List String) :
    Nat → List (List String) → List String → Nat → Option (Except PyErr Nat)
  | fuel, current_nodes_list, current, steps =>
    if ∀ n ∈ current, n ∈ end_nodes then some (.ok steps)
    else
      match fuel with
      | 0 => none
      | fuel + 1 =>
        match go_path_one network_map end_nodes network_path current with
        | .error e => some (.error e)
        | .ok q =>
          if q.1 ∈ current_nodes_list then some (.error .valueError)
          else
            go_path_go network_map network_path end_nodes fuel
              (current_nodes_list ++ [q.1]) q.1 (steps + q.2)

/-- `go_path` with explicit fuel: the loop starts from
`current_nodes = [start_nodes]` and zero steps. -/
def go_path (fuel : Nat) (network_path : List Char)
    (network_map : NetworkMap) (start_nodes end_nodes : List String) :
    Option (Except PyErr Nat) :=
  go_path_go network_map network_path end_nodes fuel [start_nodes]
    start_nodes 0

/-- Specification side: follow a finite character list once from a
configuration (`none` when a lookup fails). -/
def walk (network_map : NetworkMap) : List Char → List String →
    Option (List String)
  | [], cfg => some cfg
  | c :: rest, cfg =>
    match step_nodes network_map c cfg with
    | .error _ => none
    | .ok next => walk network_map rest next

/-- Specification side: the configuration after `t` single steps, the
path being followed cyclically (step `t` uses the instruction at index
`t mod length`).  `none` when a lookup fails along the way. -/
def config_at (network_map : NetworkMap) (network_path : List Char)
    (start_nodes : List String) : Nat → Option (List String)
  | 0 => some start_nodes
  | t + 1 =>
    match config_at network_map network_path start_nodes t with
    | none => none
    | some cfg =>
      match
        step_nodes network_map
          (network_path.getD (t % network_path.length) 'L') cfg with
      | .error _ => none
      | .ok next => some next

/-- The end configuration is reached after exactly `t` steps. -/
def hits_end (network_map : NetworkMap) (network_path : List Char)
    (start_nodes end_nodes : List String) (t : Nat) : Prop :=
  ∃ cfg, config_at network_map network_path start_nodes t = some cfg ∧
    ∀ n ∈ cfg, n ∈ end_nodes

instance hits_end_dec (network_map : NetworkMap) (network_path : List Char)
    (start_nodes end_nodes : List String) (t : Nat) :
    Decidable (hits_end network_map network_path start_nodes end_nodes t) :=
  match h : config_at network_map network_path start_nodes t with
  | none => isFalse (by simp [hits_end, h])
  | some cfg =>
    decidable_of_iff (∀ n ∈ cfg, n ∈ end_nodes) (by simp [hits_end, h])

/-- Every node mentioned on the right-hand side of the map appears as a
key ("the nodes of the map all appear as keys"). -/
def closed_map (network_map : NetworkMap) : Prop :=
  ∀ entry ∈ network_map, entry.2.1 ∈ map_keys network_map ∧
    entry.2.2 ∈ map_keys network_map

instance closed_map_dec (network_map : NetworkMap) :
    Decidable (closed_map network_map) :=
  decidable_of_iff
    (∀ entry ∈ network_map, entry.2.1 ∈ map_keys network_map ∧
      entry.2.2 ∈ map_keys network_map) Iff.rfl

/-- The nodes appearing as values of the map. -/
def map_values (network_map : NetworkMap) : List String :=
  network_map.flatMap (fun e => [e.2.1, e.2.2])

/-- All lists of a given length over a given alphabet (the finite space
the whole-pass configurations range over). -/
def lists_over (alphabet : List String) : Nat → List (List String)
  | 0 => [[]]
  | n + 1 =>
    alphabet.flatMap (fun a => (lists_over alphabet n).map (fun l => a :: l))

/-- The line printed to standard output by the `__main__` block of
src/08/main.py (non-`lcm` branch) for a given `go_path` outcome: the step
count on success, the fixed message when the `except ValueError` clause
fires.  A `KeyError` is not caught: the process dies with a traceback and
nothing is printed to standard output. -/
def day08_main_lines (result : Except PyErr Nat) : List String :=
  match result with
  | .ok n => [s!"Path took {n}"]
  | .error .valueError => ["Cannot reach ZZZ from AAA using given path."]
  | .error .keyError => []

end Day08

/-!
# Theorems

Helper lemmas first, then one theorem per claim (with witness theorems
for the claims whose statements carry hypotheses).
-/

/-- `x & 255` is reduction modulo 256. -/
theorem land_255_eq_mod (x : Nat) : x &&& 255 = x % 256 := by
  have h : (255 : Nat) = 2 ^ 8 - 1 := by norm_num
  have h2 : (256 : Nat) = 2 ^ 8 := by norm_num
  rw [h, h2, Nat.and_pow_two_sub_one_eq_mod]

/-- The shift-and-add step is the multiply-by-17 step modulo 256. -/
theorem holiday_hash_step_eq (v : Nat) (c : Char) :
    Day15.holiday_hash_step v c = ((v + c.toNat) * 17) % 256 := by
  unfold Day15.holiday_hash_step
  rw [land_255_eq_mod, land_255_eq_mod, Nat.shiftLeft_eq]
  have h17 : ∀ w : Nat, w * 2 ^ 4 + w = w * 17 := by intro w; ring
  rw [h17, Nat.mod_mul_mod, Nat.add_comm c.toNat v]

/-- Folding the hash step keeps the value below 256. -/
theorem foldl_holiday_hash_step_lt (l : List Char) :
    ∀ v, v < 256 → l.foldl Day15.holiday_hash_step v < 256 := by
  induction l with
  | nil => intro v hv; simpa using hv
  | cons c rest ih =>
    intro v _
    apply ih
    rw [holiday_hash_step_eq]
    exact Nat.mod_lt _ (by norm_num)

/-- The hash of any string is below 256. -/
theorem holiday_hash_lt (s : String) : Day15.holiday_hash s < 256 :=
  foldl_holiday_hash_step_lt s.data 0 (by norm_num)

/-- C9: for every ASCII string, `holiday_hash` computed with the
shift-and-add step agrees with the reference fold
`v := ((v + code) * 17) mod 256`; the result lies in `[0, 255]`, and the
index `holiday_hash label` that `holiday_hash_map` uses into the 256
boxes is in bounds. -/
theorem c9_holiday_hash (s : String) (boxes : List Day15.Box)
    (focal_length : Int) (_hascii : ∀ c ∈ s.data, c.toNat < 128)
    (hlen : boxes.length = 256) :
    Day15.holiday_hash s = Day15.holiday_hash_ref s ∧
    Day15.holiday_hash s < 256 ∧
    (Day15.holiday_hash_map boxes s focal_length).isSome := by
  refine ⟨?_, holiday_hash_lt s, ?_⟩
  · exact List.foldl_ext _ _ 0 (fun a c _ => holiday_hash_step_eq a c)
  · have hin : Day15.holiday_hash s < boxes.length := by
      rw [hlen]; exact holiday_hash_lt s
    unfold Day15.holiday_hash_map
    dsimp only
    rw [dif_pos hin]
    split <;> rfl

/-- Witness for C9 at the string `"HASH"` and 256 empty boxes. -/
theorem c9_holiday_hash_witness :
    ((∀ c ∈ "HASH".data, c.toNat < 128) ∧
      (List.replicate 256 ([] : Day15.Box)).length = 256) ∧
    (Day15.holiday_hash "HASH" = Day15.holiday_hash_ref "HASH" ∧
      Day15.holiday_hash "HASH" < 256 ∧
      (Day15.holiday_hash_map (List.replicate 256 ([] : Day15.Box)) "HASH"
        1).isSome) :=
  ⟨⟨by decide, List.length_replicate 256 []⟩,
    c9_holiday_hash "HASH" (List.replicate 256 ([] : Day15.Box)) 1
      (by decide) (List.length_replicate 256 [])⟩

/-- C8: the card score is 0 for zero matches (the `int` truncation of
`2 ** (-1) = 0.5`) and `2 ^ (n - 1)` for `n ≥ 1` matches; both cases are
the truncated division `2 ^ n / 2`, and the score is a natural number. -/
theorem c8_get_card_score (w h : List Int) :
    Day04.get_card_score w h =
      (if Day04.get_match_card w h = 0 then 0
       else 2 ^ (Day04.get_match_card w h - 1)) ∧
    Day04.get_card_score w h = 2 ^ Day04.get_match_card w h / 2 := by
  unfold Day04.get_card_score
  rcases hn : Day04.get_match_card w h with _ | n
  · simp
  · refine ⟨by simp, ?_⟩
    rw [pow_succ, Nat.mul_div_cancel _ (by norm_num)]

/-- C4: with `is_range = True`, an odd parsed seed count emits a warning
and falls back to the flat list with `is_range = False`; an even count
returns the consecutive `(start, length)` pairs with `is_range = True`
(and no warning). -/
theorem c4_get_seed_numbers (s : String) :
    Day05.get_seed_numbers s true =
      if (find_nats s.data).length % 2 = 1 then
        (Sum.inl (find_nats s.data), false, true)
      else (Sum.inr (Day05.pair_up (find_nats s.data)), true, false) := by
  unfold Day05.get_seed_numbers
  rcases Nat.mod_two_eq_zero_or_one (find_nats s.data).length with h | h
  · simp [h]
  · simp [h]


theorem ref_copy_eq (ms : List Nat) (i : Nat) :
    Day04.ref_copy ms i =
      1 + ((List.range i).map
        (fun j => if i ≤ j + ms.getD j 0 then Day04.ref_copy ms j else 0)).sum := by
  rw [Day04.ref_copy]
  congr 1
  exact congrArg List.sum
    (List.attach_map_coe (List.range i)
      (fun j => if i ≤ j + ms.getD j 0 then Day04.ref_copy ms j else 0))

theorem getD_replicate (n c d : Nat) :
    (List.replicate n c).getD d 0 = if d < n then c else 0 := by
  induction n generalizing d with
  | zero => simp
  | succ k ih =>
    cases d with
    | zero => simp [List.replicate]
    | succ d2 =>
      rw [List.replicate, List.getD_cons_succ, ih]
      simp [Nat.succ_lt_succ_iff]

theorem getD_update_queue (k : Nat) :
    ∀ (q : List Nat) (c d : Nat),
      (Day04.update_queue q k c).getD d 0 =
        q.getD d 0 + if d < k then c else 0 := by
  induction k with
  | zero => intro q c d; simp [Day04.update_queue]
  | succ k2 ih =>
    intro q c d
    cases q with
    | nil =>
      show (List.replicate (k2 + 1) c).getD d 0 = _
      rw [getD_replicate]
      simp
    | cons c0 q2 =>
      cases d with
      | zero => simp [Day04.update_queue]
      | succ d2 =>
        show ((c0 + c) :: Day04.update_queue q2 k2 c).getD (d2 + 1) 0 = _
        rw [List.getD_cons_succ, List.getD_cons_succ, ih]
        simp [Nat.succ_lt_succ_iff]

theorem headD_eq_getD (q : List Nat) : q.headD 0 = q.getD 0 0 := by
  cases q <;> rfl

theorem tail_getD (q : List Nat) (d : Nat) :
    q.tail.getD d 0 = q.getD (d + 1) 0 := by
  cases q with
  | nil => rfl
  | cons c0 q2 => rw [List.getD_cons_succ]; rfl

theorem queue_spec_zero (ms : List Nat) (d : Nat) :
    Day04.queue_spec ms 0 d = 0 := by
  simp [Day04.queue_spec]

theorem queue_spec_succ (ms : List Nat) (i d : Nat) :
    Day04.queue_spec ms (i + 1) d =
      Day04.queue_spec ms i (d + 1) +
        if i + 1 + d ≤ i + ms.getD i 0 then Day04.ref_copy ms i else 0 := by
  unfold Day04.queue_spec
  have h : i + 1 + d = i + (d + 1) := by omega
  simp only [h]
  rw [List.range_succ, List.map_append, List.sum_append]
  simp

theorem total_spec_succ (ms : List Nat) (i : Nat) :
    Day04.total_spec ms (i + 1) = Day04.total_spec ms i + Day04.ref_copy ms i := by
  unfold Day04.total_spec
  rw [List.range_succ, List.map_append, List.sum_append]
  simp

theorem ref_copy_formula (ms : List Nat) (i : Nat) :
    Day04.ref_copy ms i = Day04.queue_spec ms i 0 + 1 := by
  rw [ref_copy_eq, Nat.add_comm]
  congr 1

theorem card_fold_go (ms : List Nat) (rest : List Nat) :
    ∀ (i : Nat) (q : List Nat) (t : Nat),
      rest = ms.drop i →
      (∀ d, q.getD d 0 = Day04.queue_spec ms i d) →
      t = Day04.total_spec ms i →
      (rest.foldl Day04.card_step (q, t)).2 =
        Day04.total_spec ms (i + rest.length) := by
  induction rest with
  | nil => intro i q t _ _ ht; simpa using ht
  | cons m rest2 ih =>
    intro i q t hdrop hq ht
    have hgot : ms[i]? = some m := by
      have h0 : (ms.drop i)[0]? = ms[i]? := by
        rw [List.getElem?_drop]
        simp
      rw [← h0, ← hdrop]
      simp
    have hm : ms.getD i 0 = m := by
      unfold List.getD
      rw [List.get?_eq_getElem?, hgot]
      rfl
    have hdrop2 : rest2 = ms.drop (i + 1) := by
      have : ms.drop (i + 1) = (ms.drop i).drop 1 := by
        rw [List.drop_drop]
      rw [this, ← hdrop]
      rfl
    have hnc : q.headD 0 + 1 = Day04.ref_copy ms i := by
      rw [headD_eq_getD, hq 0, ← ref_copy_formula]
    rw [List.foldl_cons]
    have hstep : Day04.card_step (q, t) m =
        (Day04.update_queue q.tail m (Day04.ref_copy ms i),
          t + Day04.ref_copy ms i) := by
      unfold Day04.card_step
      rw [hnc]
    rw [hstep]
    have hq2 : ∀ d, (Day04.update_queue q.tail m (Day04.ref_copy ms i)).getD d 0 =
        Day04.queue_spec ms (i + 1) d := by
      intro d
      rw [getD_update_queue, tail_getD, hq (d + 1), queue_spec_succ, hm]
      congr 1
      by_cases hcase : d < m
      · rw [if_pos hcase, if_pos (by omega)]
      · rw [if_neg hcase, if_neg (by omega)]
    have ht2 : t + Day04.ref_copy ms i = Day04.total_spec ms (i + 1) := by
      rw [total_spec_succ, ht]
    have := ih (i + 1) _ _ hdrop2 hq2 ht2
    rw [this]
    congr 1
    simp
    omega

/-- C2: `get_total_number_cards` returns the sum over all cards of the
reference copy counts `c_i = 1 + sum of c_j over j < i with i ≤ j + m_j`,
where `m_j` is the match count of card `j` per `get_match_card`. -/
theorem c2_get_total_number_cards (cards : List (List Int × List Int)) :
    Day04.get_total_number_cards cards =
      ((List.range cards.length).map
        (Day04.ref_copy
          (cards.map (fun card => Day04.get_match_card card.1 card.2)))).sum := by
  unfold Day04.get_total_number_cards
  have hfold :
      cards.foldl
          (fun st card => Day04.card_step st (Day04.get_match_card card.1 card.2))
          ([], 0) =
        (cards.map (fun card => Day04.get_match_card card.1 card.2)).foldl
          Day04.card_step ([], 0) := by
    rw [List.foldl_map]
  rw [hfold]
  have hmain :=
    card_fold_go (cards.map (fun card => Day04.get_match_card card.1 card.2))
      (cards.map (fun card => Day04.get_match_card card.1 card.2)) 0 [] 0
      (by simp) (fun d => by simp [queue_spec_zero, List.getD]) rfl
  rw [hmain]
  unfold Day04.total_spec
  simp

/-- Counterexample to C6: day 4's script prints two lines per run (one
per part), not one, already on the empty card list. -/
theorem c6_counterexample :
    (Day04.day04_main_lines []).length = 2 ∧
    (Day04.day04_main_lines []).length ≠ 1 := by
  constructor
  · rfl
  · decide

/-- C6 (amended): day 4's script prints exactly two lines per run, while
day 8's script prints exactly one line whenever `go_path` returns or
raises the `ValueError` caught by its `except` clause (an uncaught
`KeyError` kills the process with no stdout line). -/
theorem c6_single_line (cards : List (List Int × List Int))
    (result : Except Day08.PyErr Nat)
    (hres : result ≠ Except.error Day08.PyErr.keyError) :
    (Day04.day04_main_lines cards).length = 2 ∧
    (Day08.day08_main_lines result).length = 1 := by
  refine ⟨rfl, ?_⟩
  match result with
  | .ok n => rfl
  | .error .valueError => rfl
  | .error .keyError => exact absurd rfl hres

/-- Witness for C6 (amended) at the empty card list and a successful
day-8 run. -/
theorem c6_single_line_witness :
    ((Except.ok 5 : Except Day08.PyErr Nat) ≠
        Except.error Day08.PyErr.keyError) ∧
    ((Day04.day04_main_lines []).length = 2 ∧
      (Day08.day08_main_lines (Except.ok 5)).length = 1) :=
  ⟨fun h => Except.noConfusion h,
    c6_single_line [] (Except.ok 5) (fun h => Except.noConfusion h)⟩

/-- Counterexample to C7: `get_winnings` with a joker mutates the
module-level `CARD_VALUE` table (here the joker `'X'` is inserted with
value `min - 1 = 1`), and a later no-joker call on the same parsed input
observes the mutation: before it the comparator raises `KeyError` on the
unknown card `'X'`, after it the call returns winnings 5. -/
theorem c7_counterexample :
    ((Day07.get_winnings Day07.CARD_VALUE [] (some 'X')).1 ≠
        Day07.CARD_VALUE) ∧
    ((Day07.get_winnings Day07.CARD_VALUE
          [(['X', 'X', 'X', 'X', 'X'], 1), (['2', '2', '2', '2', '2'], 2)]
          none).2.toOption ≠
      (Day07.get_winnings (Day07.get_winnings Day07.CARD_VALUE [] (some 'X')).1
          [(['X', 'X', 'X', 'X', 'X'], 1), (['2', '2', '2', '2', '2'], 2)]
          none).2.toOption) := by
  constructor
  · decide
  · decide

/-- C7 (amended): threading `CARD_VALUE` explicitly, a no-joker
`get_winnings` call leaves the table untouched, while a joker call
rewrites exactly the joker entry to `min(values) - 1`, independently of
the parsed input file — the one observable module-level mutation. -/
theorem c7_get_winnings_state (cv : List (Char × Int))
    (lines lines2 : List (List Char × Int)) (j : Char) :
    (Day07.get_winnings cv lines none).1 = cv ∧
    (Day07.get_winnings cv lines (some j)).1 =
      Day07.dict_set cv j (Day07.values_min cv - 1) ∧
    (Day07.get_winnings cv lines (some j)).1 =
      (Day07.get_winnings cv lines2 (some j)).1 :=
  ⟨rfl, rfl, rfl⟩

theorem diff_step_nil : Day09.diff_step [] = [] := rfl

theorem diff_step_single (a : Int) : Day09.diff_step [a] = [] := rfl

theorem diff_step_cons2 (a b : Int) (t : List Int) :
    Day09.diff_step (a :: b :: t) = (b - a) :: Day09.diff_step (b :: t) := rfl

theorem diff_step_length (seq : List Int) :
    (Day09.diff_step seq).length = seq.length - 1 := by
  simp only [Day09.diff_step, List.length_zipWith, List.length_tail]
  omega

theorem sum_abs_eq_zero (seq : List Int) :
    Day09.sum_abs seq = 0 ↔ ∀ x ∈ seq, x = 0 := by
  unfold Day09.sum_abs
  rw [List.sum_eq_zero_iff]
  simp [Int.natAbs_eq_zero]

theorem diff_step_zero (seq : List Int) (h : ∀ x ∈ seq, x = 0) :
    ∀ x ∈ Day09.diff_step seq, x = 0 := by
  induction seq with
  | nil => simp [diff_step_nil]
  | cons a t ih =>
    cases t with
    | nil => simp [diff_step_single]
    | cons b t2 =>
      rw [diff_step_cons2]
      intro x hx
      rcases List.mem_cons.mp hx with hx1 | hx2
      · have ha : a = 0 := h a (by simp)
        have hb : b = 0 := h b (by simp)
        rw [hx1, ha, hb, sub_zero]
      · exact ih (fun y hy => h y (List.mem_cons_of_mem a hy)) x hx2

theorem iter_diff_succ (d : Nat) (seq : List Int) :
    Day09.iter_diff (d + 1) seq = Day09.iter_diff d (Day09.diff_step seq) :=
  Function.iterate_succ_apply Day09.diff_step d seq

theorem iter_diff_succ_out (d : Nat) (seq : List Int) :
    Day09.iter_diff (d + 1) seq = Day09.diff_step (Day09.iter_diff d seq) :=
  Function.iterate_succ_apply' Day09.diff_step d seq

theorem iter_diff_zero_depth (seq : List Int) : Day09.iter_diff 0 seq = seq := rfl

theorem iter_diff_length (d : Nat) (seq : List Int) :
    (Day09.iter_diff d seq).length = seq.length - d := by
  induction d with
  | zero => simp [iter_diff_zero_depth]
  | succ d2 ih =>
    rw [iter_diff_succ_out, diff_step_length, ih]
    omega

theorem iter_diff_zero (seq : List Int) (h : ∀ x ∈ seq, x = 0) (k : Nat) :
    ∀ x ∈ Day09.iter_diff k seq, x = 0 := by
  induction k with
  | zero => simpa [iter_diff_zero_depth] using h
  | succ k2 ih =>
    rw [iter_diff_succ_out]
    exact diff_step_zero _ ih

theorem getLastD_of_zero (l : List Int) :
    ∀ d : Int, (∀ x ∈ l, x = 0) → d = 0 → l.getLastD d = 0 := by
  induction l with
  | nil => intro d _ hd; simpa using hd
  | cons a t ih =>
    intro d h _
    rw [List.getLastD_cons]
    exact ih a (fun y hy => h y (List.mem_cons_of_mem a hy)) (h a (by simp))

theorem headD_of_zero (l : List Int) (h : ∀ x ∈ l, x = 0) : l.headD 0 = 0 := by
  cases l with
  | nil => rfl
  | cons a t => exact h a (by simp)

theorem getLastD_irrel (l : List Int) (h : l ≠ []) (d1 d2 : Int) :
    l.getLastD d1 = l.getLastD d2 := by
  cases l with
  | nil => exact absurd rfl h
  | cons a t => rfl

theorem diff_step_append (xs : List Int) (a : Int) :
    xs ≠ [] →
      Day09.diff_step (xs ++ [a]) =
        Day09.diff_step xs ++ [a - xs.getLastD 0] := by
  induction xs with
  | nil => intro h; exact absurd rfl h
  | cons x t ih =>
    intro _
    cases t with
    | nil => rfl
    | cons y t2 =>
      rw [show ((x :: y :: t2) ++ [a]) = (x :: y :: (t2 ++ [a])) from rfl,
        diff_step_cons2 x y (t2 ++ [a]),
        show (y :: (t2 ++ [a])) = ((y :: t2) ++ [a]) from rfl,
        ih (by simp), diff_step_cons2 x y t2]
      rfl

theorem diff_step_cons_front (a : Int) (xs : List Int) (h : xs ≠ []) :
    Day09.diff_step (a :: xs) = (xs.headD 0 - a) :: Day09.diff_step xs := by
  cases xs with
  | nil => exact absurd rfl h
  | cons y t => rw [diff_step_cons2]; rfl

theorem lasts_sum_zero_depth (seq : List Int) : Day09.lasts_sum seq 0 = 0 := by
  simp [Day09.lasts_sum]

theorem heads_alt_sum_zero_depth (seq : List Int) :
    Day09.heads_alt_sum seq 0 = 0 := by
  simp [Day09.heads_alt_sum]

theorem lasts_sum_succ (seq : List Int) (d : Nat) :
    Day09.lasts_sum seq (d + 1) =
      Day09.lasts_sum seq d + (Day09.iter_diff d seq).getLastD 0 := by
  unfold Day09.lasts_sum
  rw [List.range_succ, List.map_append, List.sum_append]
  simp

theorem heads_alt_sum_succ (seq : List Int) (d : Nat) :
    Day09.heads_alt_sum seq (d + 1) =
      Day09.heads_alt_sum seq d +
        (-1 : Int) ^ d * (Day09.iter_diff d seq).headD 0 := by
  unfold Day09.heads_alt_sum
  rw [List.range_succ, List.map_append, List.sum_append]
  simp

theorem lasts_sum_of_zero (seq : List Int) (h : ∀ x ∈ seq, x = 0) (d : Nat) :
    Day09.lasts_sum seq d = 0 := by
  apply List.sum_eq_zero
  intro x hx
  rcases List.mem_map.mp hx with ⟨k, _, hk⟩
  rw [← hk, getLastD_of_zero _ 0 (iter_diff_zero seq h k) rfl]

theorem heads_alt_sum_of_zero (seq : List Int) (h : ∀ x ∈ seq, x = 0) (d : Nat) :
    Day09.heads_alt_sum seq d = 0 := by
  apply List.sum_eq_zero
  intro x hx
  rcases List.mem_map.mp hx with ⟨k, _, hk⟩
  rw [← hk, headD_of_zero _ (iter_diff_zero seq h k), mul_zero]

theorem iter_diff_append (seq : List Int) (v : Int) :
    ∀ d, d + 1 ≤ seq.length →
      Day09.iter_diff d (seq ++ [v]) =
        Day09.iter_diff d seq ++ [v - Day09.lasts_sum seq d] := by
  intro d
  induction d with
  | zero =>
    intro _
    rw [iter_diff_zero_depth, iter_diff_zero_depth, lasts_sum_zero_depth,
      sub_zero]
  | succ d2 ih =>
    intro hd
    have hne : Day09.iter_diff d2 seq ≠ [] := by
      apply List.ne_nil_of_length_pos
      rw [iter_diff_length]
      omega
    rw [iter_diff_succ_out, ih (by omega), diff_step_append _ _ hne,
      iter_diff_succ_out, lasts_sum_succ, sub_sub]

theorem iter_diff_cons (seq : List Int) (w : Int) :
    ∀ d, d + 1 ≤ seq.length →
      Day09.iter_diff d (w :: seq) =
        ((-1 : Int) ^ d * (w - Day09.heads_alt_sum seq d)) ::
          Day09.iter_diff d seq := by
  intro d
  induction d with
  | zero =>
    intro _
    rw [iter_diff_zero_depth, iter_diff_zero_depth, heads_alt_sum_zero_depth,
      sub_zero, pow_zero, one_mul]
  | succ d2 ih =>
    intro hd
    have hne : Day09.iter_diff d2 seq ≠ [] := by
      apply List.ne_nil_of_length_pos
      rw [iter_diff_length]
      omega
    rw [iter_diff_succ_out, ih (by omega), diff_step_cons_front _ _ hne,
      iter_diff_succ_out, heads_alt_sum_succ]
    congr 1
    rcases Nat.even_or_odd d2 with hpar | hpar
    · rw [pow_succ, hpar.neg_one_pow]
      ring
    · rw [pow_succ, hpar.neg_one_pow]
      ring

theorem gen_ones_false (n : Nat) :
    Day09.gen_ones_list false n = List.replicate n 1 := by
  unfold Day09.gen_ones_list
  rw [show (fun i => if false = true ∧ i % 2 = 1 then (-1 : Int) else 1) =
      (fun _ : Nat => (1 : Int)) from by funext i; simp]
  simp [List.map_const']

theorem zip_ones_sum (l : List Int) :
    (List.zipWith (fun alt num => alt * num) (List.replicate l.length 1)
      l).sum = l.sum := by
  induction l with
  | nil => rfl
  | cons x xs ih =>
    show (List.zipWith _ (1 :: List.replicate xs.length 1) (x :: xs)).sum = _
    rw [List.zipWith_cons_cons, List.sum_cons, List.sum_cons, ih, one_mul]

theorem gen_ones_true_succ (n : Nat) :
    Day09.gen_ones_list true (n + 1) =
      1 :: (Day09.gen_ones_list true n).map (fun x => -x) := by
  unfold Day09.gen_ones_list
  rw [List.range_succ_eq_map, List.map_cons, List.map_map, List.map_map]
  congr 1
  case e_tail =>
    apply List.map_congr_left
    intro i _
    simp only [Function.comp_apply]
    rcases Nat.even_or_odd i with hpar | hpar
    · have h1 : i % 2 = 0 := Nat.even_iff.mp hpar
      have h2 : (i + 1) % 2 = 1 := by omega
      simp [h1, h2]
    · have h1 : i % 2 = 1 := Nat.odd_iff.mp hpar
      have h2 : (i + 1) % 2 = 0 := by omega
      simp [h1, h2]

theorem zip_neg_left_sum (ws l : List Int) :
    (List.zipWith (fun alt num => alt * num) (ws.map (fun x => -x)) l).sum =
      -(List.zipWith (fun alt num => alt * num) ws l).sum := by
  induction ws generalizing l with
  | nil => simp
  | cons w ws2 ih =>
    cases l with
    | nil => simp
    | cons x xs =>
      rw [List.map_cons, List.zipWith_cons_cons, List.zipWith_cons_cons,
        List.sum_cons, List.sum_cons, ih, neg_mul, neg_add]

theorem gen_ones_true_sum (l : List Int) :
    (List.zipWith (fun alt num => alt * num)
      (Day09.gen_ones_list true l.length) l).sum = Day09.alt_sum l := by
  induction l with
  | nil => rfl
  | cons x xs ih =>
    rw [show (x :: xs).length = xs.length + 1 from rfl, gen_ones_true_succ,
      List.zipWith_cons_cons, List.sum_cons, zip_neg_left_sum, ih, one_mul]
    rfl

theorem lasts_sum_front (seq : List Int) (d : Nat) :
    Day09.lasts_sum seq (d + 1) =
      seq.getLastD 0 + Day09.lasts_sum (Day09.diff_step seq) d := by
  unfold Day09.lasts_sum
  rw [List.range_succ_eq_map, List.map_cons, List.sum_cons, List.map_map]
  congr 2

theorem heads_alt_sum_front (seq : List Int) (d : Nat) :
    Day09.heads_alt_sum seq (d + 1) =
      seq.headD 0 - Day09.heads_alt_sum (Day09.diff_step seq) d := by
  unfold Day09.heads_alt_sum
  rw [List.range_succ_eq_map, List.map_cons, List.sum_cons, List.map_map]
  have hmap : List.map
      ((fun k => (-1 : Int) ^ k * (Day09.iter_diff k seq).headD 0) ∘ Nat.succ)
      (List.range d) =
      List.map (fun x => -x)
        (List.map
          (fun k => (-1 : Int) ^ k *
            (Day09.iter_diff k (Day09.diff_step seq)).headD 0)
          (List.range d)) := by
    rw [List.map_map]
    apply List.map_congr_left
    intro k _
    simp only [Function.comp_apply]
    rw [show Day09.iter_diff (Nat.succ k) seq =
      Day09.iter_diff k (Day09.diff_step seq) from iter_diff_succ k seq]
    rw [pow_succ]
    ring
  rw [hmap]
  have hneg : ∀ l : List Int, (l.map (fun x => -x)).sum = -l.sum := by
    intro l
    induction l with
    | nil => simp
    | cons a t iht => rw [List.map_cons, List.sum_cons, List.sum_cons, iht]; ring
  rw [hneg]
  simp only [sub_eq_add_neg, pow_zero, one_mul]
  rfl

theorem get_diffs_go_spec (fuel : Nat) :
    ∀ (seq : List Int) (d : Nat) (b : Bool),
      seq.length ≤ fuel → d + 1 ≤ seq.length →
      (∀ x ∈ Day09.iter_diff d seq, x = 0) →
      ∃ l, Day09.get_diffs_go fuel seq b = some l ∧
        (if b then Day09.alt_sum l = Day09.heads_alt_sum seq d
         else l.sum = Day09.lasts_sum seq d) := by
  induction fuel with
  | zero =>
    intro seq d b hfuel _ _
    have hseq : seq = [] := List.eq_nil_of_length_eq_zero (by omega)
    subst hseq
    refine ⟨[], rfl, ?_⟩
    cases b
    · show ([] : List Int).sum = _
      rw [List.sum_nil, lasts_sum_of_zero _ (by simp) d]
    · show Day09.alt_sum [] = _
      rw [show Day09.alt_sum [] = 0 from rfl,
        heads_alt_sum_of_zero _ (by simp) d]
  | succ f ih =>
    intro seq d b hfuel hd hz
    by_cases hz0 : Day09.sum_abs seq = 0
    · refine ⟨[], ?_, ?_⟩
      · unfold Day09.get_diffs_go
        rw [if_pos hz0]
      · have hall : ∀ x ∈ seq, x = 0 := (sum_abs_eq_zero seq).mp hz0
        cases b
        · show ([] : List Int).sum = _
          rw [List.sum_nil, lasts_sum_of_zero _ hall d]
        · show Day09.alt_sum [] = _
          rw [show Day09.alt_sum [] = 0 from rfl,
            heads_alt_sum_of_zero _ hall d]
    · have hnall : ¬ ∀ x ∈ seq, x = 0 :=
        fun hc => hz0 ((sum_abs_eq_zero seq).mpr hc)
      have hd0 : d ≠ 0 := by
        rintro rfl
        exact hnall (by simpa [iter_diff_zero_depth] using hz)
      obtain ⟨d2, rfl⟩ : ∃ d2, d = d2 + 1 := ⟨d - 1, by omega⟩
      have hlen2 : 2 ≤ seq.length := by omega
      obtain ⟨l2, hl2, hval⟩ :=
        ih (Day09.diff_step seq) d2 b
          (by rw [diff_step_length]; omega)
          (by rw [diff_step_length]; omega)
          (by rw [← iter_diff_succ]; exact hz)
      refine ⟨(if b then seq.headD 0 else seq.getLastD 0) :: l2, ?_, ?_⟩
      · unfold Day09.get_diffs_go
        rw [if_neg hz0, if_neg (by omega : ¬ seq.length = 1)]
        show (match Day09.get_diffs_go f (Day09.diff_step seq) b with
          | none => none
          | some rest =>
            some ((if b = true then seq.headD 0 else seq.getLastD 0) :: rest)) =
          some ((if b = true then seq.headD 0 else seq.getLastD 0) :: l2)
        rw [hl2]
      · cases b
        · show (seq.getLastD 0 :: l2).sum = _
          rw [List.sum_cons, lasts_sum_front]
          simp only [if_neg Bool.false_ne_true] at hval
          rw [hval]
        · show Day09.alt_sum (seq.headD 0 :: l2) = _
          rw [show Day09.alt_sum (seq.headD 0 :: l2) =
            seq.headD 0 - Day09.alt_sum l2 from rfl, heads_alt_sum_front]
          simp at hval
          rw [hval]

/-- C5: for a line whose parsed sequence has length at least 2 and whose
difference tower reaches an all-zero level `d`, `get_next_element(line,
False)` returns the sum of the last elements of the levels — the unique
value whose appending keeps level `d` of the tower all-zero — and
`get_next_element(line, True)` returns the alternating sum of the first
elements — the unique value whose prepending does the same. -/
theorem c5_get_next_element (line : String) (d : Nat)
    (_hlen : 2 ≤ (find_ints line.data).length)
    (hd : d + 1 ≤ (find_ints line.data).length)
    (hz : ∀ x ∈ Day09.iter_diff d (find_ints line.data), x = 0) :
    (∃ v, Day09.get_next_element line false = some v ∧
      v = Day09.lasts_sum (find_ints line.data) d ∧
      (∀ x ∈ Day09.iter_diff d (find_ints line.data ++ [v]), x = 0) ∧
      ∀ w, (∀ x ∈ Day09.iter_diff d (find_ints line.data ++ [w]), x = 0) →
        w = v) ∧
    (∃ v, Day09.get_next_element line true = some v ∧
      v = Day09.heads_alt_sum (find_ints line.data) d ∧
      (∀ x ∈ Day09.iter_diff d (v :: find_ints line.data), x = 0) ∧
      ∀ w, (∀ x ∈ Day09.iter_diff d (w :: find_ints line.data), x = 0) →
        w = v) := by
  constructor
  · obtain ⟨l, hl, hval⟩ :=
      get_diffs_go_spec (find_ints line.data).length (find_ints line.data) d
        false le_rfl hd hz
    simp only [if_neg Bool.false_ne_true] at hval
    refine ⟨Day09.lasts_sum (find_ints line.data) d, ?_, rfl, ?_, ?_⟩
    · unfold Day09.get_next_element
      rw [show Day09.get_diffs (find_ints line.data) false =
        Day09.get_diffs_go (find_ints line.data).length (find_ints line.data)
          false from rfl, hl]
      show some (List.zipWith (fun alt num => alt * num)
        (Day09.gen_ones_list false l.length) l).sum = _
      rw [gen_ones_false, zip_ones_sum, hval]
    · intro x hx
      rw [iter_diff_append _ _ d hd, sub_self] at hx
      rcases List.mem_append.mp hx with hx2 | hx2
      · exact hz x hx2
      · simpa using hx2
    · intro w hw
      rw [iter_diff_append _ _ d hd] at hw
      have hmem : w - Day09.lasts_sum (find_ints line.data) d ∈
          Day09.iter_diff d (find_ints line.data) ++
            [w - Day09.lasts_sum (find_ints line.data) d] :=
        List.mem_append_right _ (by simp)
      have := hw _ hmem
      omega
  · obtain ⟨l, hl, hval⟩ :=
      get_diffs_go_spec (find_ints line.data).length (find_ints line.data) d
        true le_rfl hd hz
    simp at hval
    refine ⟨Day09.heads_alt_sum (find_ints line.data) d, ?_, rfl, ?_, ?_⟩
    · unfold Day09.get_next_element
      rw [show Day09.get_diffs (find_ints line.data) true =
        Day09.get_diffs_go (find_ints line.data).length (find_ints line.data)
          true from rfl, hl]
      show some (List.zipWith (fun alt num => alt * num)
        (Day09.gen_ones_list true l.length) l).sum = _
      rw [gen_ones_true_sum, hval]
    · intro x hx
      rw [iter_diff_cons _ _ d hd, sub_self, mul_zero] at hx
      rcases List.mem_cons.mp hx with hx2 | hx2
      · exact hx2
      · exact hz x hx2
    · intro w hw
      rw [iter_diff_cons _ _ d hd] at hw
      have hmem : (-1 : Int) ^ d *
          (w - Day09.heads_alt_sum (find_ints line.data) d) ∈
          ((-1 : Int) ^ d *
            (w - Day09.heads_alt_sum (find_ints line.data) d)) ::
            Day09.iter_diff d (find_ints line.data) := by simp
      have hzero := hw _ hmem
      have hne : ((-1 : Int)) ^ d ≠ 0 := pow_ne_zero d (by norm_num)
      have := mul_eq_zero.mp hzero
      rcases this with hcase | hcase
      · exact absurd hcase hne
      · omega

/-- Witness for C5 at the sample line `0 3 6 9 12 15` with the all-zero
level at depth 2. -/
theorem c5_get_next_element_witness :
    (2 ≤ (find_ints "0 3 6 9 12 15".data).length ∧
      2 + 1 ≤ (find_ints "0 3 6 9 12 15".data).length ∧
      (∀ x ∈ Day09.iter_diff 2 (find_ints "0 3 6 9 12 15".data), x = 0)) ∧
    ((∃ v, Day09.get_next_element "0 3 6 9 12 15" false = some v ∧
      v = Day09.lasts_sum (find_ints "0 3 6 9 12 15".data) 2 ∧
      (∀ x ∈ Day09.iter_diff 2 (find_ints "0 3 6 9 12 15".data ++ [v]),
        x = 0) ∧
      ∀ w, (∀ x ∈ Day09.iter_diff 2 (find_ints "0 3 6 9 12 15".data ++ [w]),
          x = 0) → w = v) ∧
    (∃ v, Day09.get_next_element "0 3 6 9 12 15" true = some v ∧
      v = Day09.heads_alt_sum (find_ints "0 3 6 9 12 15".data) 2 ∧
      (∀ x ∈ Day09.iter_diff 2 (v :: find_ints "0 3 6 9 12 15".data),
        x = 0) ∧
      ∀ w, (∀ x ∈ Day09.iter_diff 2 (w :: find_ints "0 3 6 9 12 15".data),
          x = 0) → w = v)) :=
  ⟨⟨by decide, by decide, by decide⟩,
    c5_get_next_element "0 3 6 9 12 15" 2 (by decide) (by decide) (by decide)⟩

theorem covers_nil (n : Int) : ¬ Day05.covers [] n := by
  simp [Day05.covers]

theorem covers_cons (r : Int × Int) (rs : List (Int × Int)) (n : Int) :
    Day05.covers (r :: rs) n ↔
      (r.1 ≤ n ∧ n ≤ r.1 + r.2 - 1) ∨ Day05.covers rs n := by
  simp [Day05.covers, List.mem_cons, or_and_right, exists_or]

theorem covers_append (a b : List (Int × Int)) (n : Int) :
    Day05.covers (a ++ b) n ↔ Day05.covers a n ∨ Day05.covers b n := by
  unfold Day05.covers
  constructor
  · rintro ⟨r, hr, hb⟩
    rcases List.mem_append.mp hr with h2 | h2
    · exact Or.inl ⟨r, h2, hb⟩
    · exact Or.inr ⟨r, h2, hb⟩
  · rintro (⟨r, hr, hb⟩ | ⟨r, hr, hb⟩)
    · exact ⟨r, List.mem_append_left _ hr, hb⟩
    · exact ⟨r, List.mem_append_right _ hr, hb⟩


theorem apply_row_ranges_spec (row : Day05.MapRow) (hrow : 1 ≤ row.range_len) :
    ∀ rs : List (Int × Int), (∀ r ∈ rs, 1 ≤ r.2) →
      (∀ r ∈ (Day05.apply_row_ranges row rs).1, 1 ≤ r.2) ∧
      (∀ r ∈ (Day05.apply_row_ranges row rs).2, 1 ≤ r.2) ∧
      (∀ n, Day05.covers (Day05.apply_row_ranges row rs).2 n ↔
        Day05.covers rs n ∧ ¬ Day05.in_row row n) ∧
      (∀ m, Day05.covers (Day05.apply_row_ranges row rs).1 m ↔
        Day05.covers rs (m - row.destination_start + row.source_start) ∧
          Day05.in_row row (m - row.destination_start + row.source_start)) := by
  intro rs
  induction rs with
  | nil =>
    intro _
    refine ⟨?_, ?_, ?_, ?_⟩
    · intro r hr
      simp [Day05.apply_row_ranges] at hr
    · intro r hr
      simp [Day05.apply_row_ranges] at hr
    · intro n
      constructor
      · intro hc
        exact absurd hc (covers_nil n)
      · rintro ⟨hc, _⟩
        exact absurd hc (covers_nil n)
    · intro m
      constructor
      · intro hc
        exact absurd hc (covers_nil m)
      · rintro ⟨hc, _⟩
        exact absurd hc (covers_nil _)
  | cons sr rest ih =>
    intro hlens
    obtain ⟨ih1, ih2, ih3, ih4⟩ :=
      ih (fun r hr => hlens r (List.mem_cons_of_mem sr hr))
    have hsr : 1 ≤ sr.2 := hlens sr (List.mem_cons_self sr rest)
    simp only [Day05.apply_row_ranges]
    split_ifs with h1 h2 h3 h4
    · -- no overlap: sr goes to the leftovers untouched
      refine ⟨ih1, ?_, ?_, ?_⟩
      · intro r hr
        rcases List.mem_cons.mp hr with hr2 | hr2
        · rw [hr2]; exact hsr
        · exact ih2 r hr2
      · intro n
        rw [covers_cons, ih3, covers_cons]
        unfold Day05.in_row
        by_cases hA : Day05.covers rest n
        all_goals try simp only [hA, iff_true, iff_false, true_iff, false_iff, true_and,
          and_true, or_true, true_or, false_and, and_false, or_false,
          false_or, not_true, not_false_iff]
        all_goals omega
      · intro m
        rw [ih4, covers_cons]
        unfold Day05.in_row
        by_cases hA :
            Day05.covers rest (m - row.destination_start + row.source_start)
        all_goals try simp only [hA, iff_true, iff_false, true_iff, false_iff, true_and,
          and_true, or_true, true_or, false_and, and_false, or_false,
          false_or, not_true, not_false_iff]
        all_goals omega
    · -- full match: sr is mapped whole
      refine ⟨?_, ih2, ?_, ?_⟩
      · intro r hr
        rcases List.mem_cons.mp hr with hr2 | hr2
        · rw [hr2]
          show 1 ≤ (row.source_start + row.range_len - 1) ⊓ (sr.1 + sr.2 - 1) -
            row.source_start ⊔ sr.1 + 1
          omega
        · exact ih1 r hr2
      · intro n
        rw [ih3, covers_cons]
        unfold Day05.in_row
        by_cases hA : Day05.covers rest n
        all_goals try simp only [hA, iff_true, iff_false, true_iff, false_iff, true_and,
          and_true, or_true, true_or, false_and, and_false, or_false,
          false_or, not_true, not_false_iff]
        all_goals omega
      · intro m
        rw [covers_cons, ih4, covers_cons]
        unfold Day05.in_row
        by_cases hA :
            Day05.covers rest (m - row.destination_start + row.source_start)
        all_goals try simp only [hA, iff_true, iff_false, true_iff, false_iff, true_and,
          and_true, or_true, true_or, false_and, and_false, or_false,
          false_or, not_true, not_false_iff]
        all_goals omega
    · -- overlap aligned at the left end of sr
      refine ⟨?_, ?_, ?_, ?_⟩
      · intro r hr
        rcases List.mem_cons.mp hr with hr2 | hr2
        · rw [hr2]
          show 1 ≤ (row.source_start + row.range_len - 1) ⊓ (sr.1 + sr.2 - 1) -
            row.source_start ⊔ sr.1 + 1
          omega
        · exact ih1 r hr2
      · intro r hr
        rcases List.mem_cons.mp hr with hr2 | hr2
        · rw [hr2]
          show 1 ≤ sr.2 -
            ((row.source_start + row.range_len - 1) ⊓ (sr.1 + sr.2 - 1) -
              row.source_start ⊔ sr.1 + 1)
          omega
        · exact ih2 r hr2
      · intro n
        rw [covers_cons, ih3, covers_cons]
        unfold Day05.in_row
        by_cases hA : Day05.covers rest n
        all_goals try simp only [hA, iff_true, iff_false, true_iff, false_iff, true_and,
          and_true, or_true, true_or, false_and, and_false, or_false,
          false_or, not_true, not_false_iff]
        all_goals omega
      · intro m
        rw [covers_cons, ih4, covers_cons]
        unfold Day05.in_row
        by_cases hA :
            Day05.covers rest (m - row.destination_start + row.source_start)
        all_goals try simp only [hA, iff_true, iff_false, true_iff, false_iff, true_and,
          and_true, or_true, true_or, false_and, and_false, or_false,
          false_or, not_true, not_false_iff]
        all_goals omega
    · -- overlap aligned at the right end of sr
      refine ⟨?_, ?_, ?_, ?_⟩
      · intro r hr
        rcases List.mem_cons.mp hr with hr2 | hr2
        · rw [hr2]
          show 1 ≤ (row.source_start + row.range_len - 1) ⊓ (sr.1 + sr.2 - 1) -
            row.source_start ⊔ sr.1 + 1
          omega
        · exact ih1 r hr2
      · intro r hr
        rcases List.mem_cons.mp hr with hr2 | hr2
        · rw [hr2]
          show 1 ≤ sr.2 -
            ((row.source_start + row.range_len - 1) ⊓ (sr.1 + sr.2 - 1) -
              row.source_start ⊔ sr.1 + 1)
          omega
        · exact ih2 r hr2
      · intro n
        rw [covers_cons, ih3, covers_cons]
        unfold Day05.in_row
        by_cases hA : Day05.covers rest n
        all_goals try simp only [hA, iff_true, iff_false, true_iff, false_iff, true_and,
          and_true, or_true, true_or, false_and, and_false, or_false,
          false_or, not_true, not_false_iff]
        all_goals omega
      · intro m
        rw [covers_cons, ih4, covers_cons]
        unfold Day05.in_row
        by_cases hA :
            Day05.covers rest (m - row.destination_start + row.source_start)
        all_goals try simp only [hA, iff_true, iff_false, true_iff, false_iff, true_and,
          and_true, or_true, true_or, false_and, and_false, or_false,
          false_or, not_true, not_false_iff]
        all_goals omega
    · -- overlap strictly inside sr: two leftover pieces
      refine ⟨?_, ?_, ?_, ?_⟩
      · intro r hr
        rcases List.mem_cons.mp hr with hr2 | hr2
        · rw [hr2]
          show 1 ≤ (row.source_start + row.range_len - 1) ⊓ (sr.1 + sr.2 - 1) -
            row.source_start ⊔ sr.1 + 1
          omega
        · exact ih1 r hr2
      · intro r hr
        rcases List.mem_cons.mp hr with hr2 | hr2
        · rw [hr2]
          show 1 ≤ row.source_start ⊔ sr.1 - sr.1
          omega
        · rcases List.mem_cons.mp hr2 with hr3 | hr3
          · rw [hr3]
            show 1 ≤ sr.1 + sr.2 - 1 -
              (row.source_start + row.range_len - 1) ⊓ (sr.1 + sr.2 - 1)
            omega
          · exact ih2 r hr3
      · intro n
        rw [covers_cons, covers_cons, ih3, covers_cons]
        unfold Day05.in_row
        by_cases hA : Day05.covers rest n
        all_goals try simp only [hA, iff_true, iff_false, true_iff, false_iff, true_and,
          and_true, or_true, true_or, false_and, and_false, or_false,
          false_or, not_true, not_false_iff]
        all_goals omega
      · intro m
        rw [covers_cons, ih4, covers_cons]
        unfold Day05.in_row
        by_cases hA :
            Day05.covers rest (m - row.destination_start + row.source_start)
        all_goals try simp only [hA, iff_true, iff_false, true_iff, false_iff, true_and,
          and_true, or_true, true_or, false_and, and_false, or_false,
          false_or, not_true, not_false_iff]
        all_goals omega

theorem apply_map_number_cons (row : Day05.MapRow) (rest : List Day05.MapRow)
    (n : Int) :
    Day05.apply_map_number (row :: rest) n =
      if Day05.in_row row n then
        row.destination_start + (n - row.source_start)
      else Day05.apply_map_number rest n := by
  unfold Day05.apply_map_number Day05.in_row
  by_cases h : row.source_start ≤ n ∧ n < row.source_start + row.range_len
  · rw [if_pos h, if_pos (by omega)]
  · rw [if_neg h, if_neg (by omega)]
    cases rest <;> rfl

theorem apply_map_range_spec (rows : List Day05.MapRow)
    (hrows : ∀ row ∈ rows, 1 ≤ row.range_len) :
    ∀ rs : List (Int × Int), (∀ r ∈ rs, 1 ≤ r.2) →
      (∀ r ∈ Day05.apply_map_range rows rs, 1 ≤ r.2) ∧
      (∀ m, Day05.covers (Day05.apply_map_range rows rs) m ↔
        ∃ n, Day05.covers rs n ∧ Day05.apply_map_number rows n = m) := by
  induction rows with
  | nil =>
    intro rs hlens
    refine ⟨hlens, ?_⟩
    intro m
    show Day05.covers rs m ↔ _
    constructor
    · intro h
      exact ⟨m, h, rfl⟩
    · rintro ⟨n, hn, hmap⟩
      rw [show Day05.apply_map_number [] n = n from rfl] at hmap
      rw [← hmap]
      exact hn
  | cons row rest ih =>
    intro rs hlens
    have hrow : 1 ≤ row.range_len := hrows row (List.mem_cons_self row rest)
    have hrest : ∀ r ∈ rest, 1 ≤ r.range_len :=
      fun r hr => hrows r (List.mem_cons_of_mem row hr)
    obtain ⟨hm1, hm2, hm3, hm4⟩ := apply_row_ranges_spec row hrow rs hlens
    obtain ⟨ihl, ihc⟩ :=
      ih hrest (Day05.apply_row_ranges row rs).2 hm2
    have hshape : Day05.apply_map_range (row :: rest) rs =
        (Day05.apply_row_ranges row rs).1 ++
          Day05.apply_map_range rest (Day05.apply_row_ranges row rs).2 := rfl
    rw [hshape]
    constructor
    · intro r hr
      rcases List.mem_append.mp hr with h2 | h2
      · exact hm1 r h2
      · exact ihl r h2
    · intro m
      rw [covers_append, ihc m, hm4 m]
      constructor
      · rintro (⟨hcov, hin⟩ | ⟨n, hn, hmap⟩)
        · refine ⟨m - row.destination_start + row.source_start, hcov, ?_⟩
          rw [apply_map_number_cons, if_pos hin]
          omega
        · rw [hm3 n] at hn
          refine ⟨n, hn.1, ?_⟩
          rw [apply_map_number_cons, if_neg hn.2]
          exact hmap
      · rintro ⟨n, hn, hmap⟩
        rw [apply_map_number_cons] at hmap
        by_cases hin : Day05.in_row row n
        · rw [if_pos hin] at hmap
          left
          have hn2 : n = m - row.destination_start + row.source_start := by
            omega
          rw [← hn2]
          exact ⟨hn, hin⟩
        · rw [if_neg hin] at hmap
          right
          refine ⟨n, ?_, hmap⟩
          rw [hm3 n]
          exact ⟨hn, hin⟩

theorem chain_apply_cons (m : List Day05.MapRow)
    (maps : List (List Day05.MapRow)) (n : Int) :
    Day05.chain_apply (m :: maps) n =
      Day05.chain_apply maps (Day05.apply_map_number m n) := rfl

theorem maps_fold_spec (map_arrays : List (List Day05.MapRow))
    (hrows : ∀ m ∈ map_arrays, ∀ row ∈ m, 1 ≤ row.range_len) :
    ∀ rs : List (Int × Int), (∀ r ∈ rs, 1 ≤ r.2) →
      (∀ r ∈ map_arrays.foldl (fun cur m => Day05.apply_map_range m cur) rs,
        1 ≤ r.2) ∧
      (∀ v,
        Day05.covers
            (map_arrays.foldl (fun cur m => Day05.apply_map_range m cur) rs)
            v ↔
          ∃ n, Day05.covers rs n ∧ Day05.chain_apply map_arrays n = v) := by
  induction map_arrays with
  | nil =>
    intro rs hlens
    refine ⟨hlens, ?_⟩
    intro v
    constructor
    · intro h
      exact ⟨v, h, rfl⟩
    · rintro ⟨n, hn, hmap⟩
      rw [show Day05.chain_apply [] n = n from rfl] at hmap
      rw [← hmap]
      exact hn
  | cons m maps ih =>
    intro rs hlens
    have hm : ∀ row ∈ m, 1 ≤ row.range_len :=
      hrows m (List.mem_cons_self m maps)
    have hmaps : ∀ m2 ∈ maps, ∀ row ∈ m2, 1 ≤ row.range_len :=
      fun m2 h2 => hrows m2 (List.mem_cons_of_mem m h2)
    obtain ⟨hl1, hc1⟩ := apply_map_range_spec m hm rs hlens
    obtain ⟨ihl, ihc⟩ := ih hmaps (Day05.apply_map_range m rs) hl1
    rw [List.foldl_cons]
    refine ⟨ihl, ?_⟩
    intro v
    rw [ihc v]
    constructor
    · rintro ⟨n2, hn2, hchain⟩
      rw [hc1 n2] at hn2
      obtain ⟨n, hn, hmap⟩ := hn2
      refine ⟨n, hn, ?_⟩
      rw [chain_apply_cons, hmap]
      exact hchain
    · rintro ⟨n, hn, hchain⟩
      refine ⟨Day05.apply_map_number m n, ?_, ?_⟩
      · rw [hc1]
        exact ⟨n, hn, rfl⟩
      · rw [chain_apply_cons] at hchain
        exact hchain

theorem min_fold_go (xs : List Int) :
    ∀ a : Int,
      xs.foldl
        (fun acc v =>
          match acc with
          | none => some v
          | some a2 => if a2 > v then some v else some a2)
        (some a) = some (xs.foldl min a) := by
  induction xs with
  | nil => intro a; rfl
  | cons x xs2 ih =>
    intro a
    rw [List.foldl_cons, List.foldl_cons]
    have hstep : (match some a with
        | none => some x
        | some a2 => if a2 > x then some x else some a2) = some (min a x) := by
      show (if a > x then some x else some a) = some (min a x)
      rcases le_total a x with h | h
      · rw [if_neg (by omega), min_eq_left h]
      · rcases lt_or_eq_of_le h with h2 | h2
        · rw [if_pos (by omega), min_eq_right h]
        · rw [h2, if_neg (by omega), min_self]
    rw [hstep, ih]

theorem min_fold_cons (x : Int) (xs : List Int) :
    Day05.min_fold (x :: xs) = some (xs.foldl min x) := by
  unfold Day05.min_fold
  rw [List.foldl_cons]
  exact min_fold_go xs x

theorem foldl_min_le (xs : List Int) :
    ∀ a : Int, xs.foldl min a ≤ a ∧ ∀ x ∈ xs, xs.foldl min a ≤ x := by
  induction xs with
  | nil => intro a; exact ⟨le_refl a, by simp⟩
  | cons x xs2 ih =>
    intro a
    rw [List.foldl_cons]
    obtain ⟨h1, h2⟩ := ih (min a x)
    refine ⟨le_trans h1 (min_le_left a x), ?_⟩
    intro y hy
    rcases List.mem_cons.mp hy with hy2 | hy2
    · rw [hy2]
      exact le_trans h1 (min_le_right a x)
    · exact h2 y hy2

theorem foldl_min_mem (xs : List Int) :
    ∀ a : Int, xs.foldl min a = a ∨ xs.foldl min a ∈ xs := by
  induction xs with
  | nil => intro a; exact Or.inl rfl
  | cons x xs2 ih =>
    intro a
    rw [List.foldl_cons]
    rcases le_total a x with h2 | h2
    · rw [min_eq_left h2]
      rcases ih a with h | h
      · exact Or.inl h
      · exact Or.inr (List.mem_cons_of_mem x h)
    · rw [min_eq_right h2]
      rcases ih x with h | h
      · exact Or.inr (by rw [h]; exact List.mem_cons_self x xs2)
      · exact Or.inr (List.mem_cons_of_mem x h)

theorem min_fold_spec (xs : List Int) (hne : xs ≠ []) :
    ∃ v, Day05.min_fold xs = some v ∧ v ∈ xs ∧ ∀ x ∈ xs, v ≤ x := by
  cases xs with
  | nil => exact absurd rfl hne
  | cons x xs2 =>
    rw [min_fold_cons]
    refine ⟨_, rfl, ?_, ?_⟩
    · rcases foldl_min_mem xs2 x with h | h
      · rw [h]
        exact List.mem_cons_self x xs2
      · exact List.mem_cons_of_mem x h
    · intro y hy
      obtain ⟨h1, h2⟩ := foldl_min_le xs2 x
      rcases List.mem_cons.mp hy with h3 | h3
      · rw [h3]
        exact h1
      · exact h2 y h3

theorem mem_expand_range (r : Int × Int) (n : Int) :
    n ∈ Day05.expand_range r ↔ r.1 ≤ n ∧ n ≤ r.1 + r.2 - 1 := by
  unfold Day05.expand_range
  simp only [List.mem_map, List.mem_range]
  constructor
  · rintro ⟨i, hi, rfl⟩
    omega
  · intro h
    exact ⟨(n - r.1).toNat, by omega, by omega⟩

theorem mem_expand_ranges (rs : List (Int × Int)) (n : Int) :
    n ∈ Day05.expand_ranges rs ↔ Day05.covers rs n := by
  unfold Day05.expand_ranges Day05.covers
  rw [List.mem_flatMap]
  constructor
  · rintro ⟨r, hr, hn⟩
    exact ⟨r, hr, (mem_expand_range r n).mp hn⟩
  · rintro ⟨r, hr, hn⟩
    exact ⟨r, hr, (mem_expand_range r n).mpr hn⟩

/-- C1 (amended): when every map row has `range_len ≥ 1`, the range mode
agrees with the number mode on the expanded seed list. -/
theorem c1_range_number_agree (seed_ranges : List (Int × Int))
    (map_arrays : List (List Day05.MapRow)) (hne : seed_ranges ≠ [])
    (hlens : ∀ r ∈ seed_ranges, 1 ≤ r.2)
    (hrows : ∀ m ∈ map_arrays, ∀ row ∈ m, 1 ≤ row.range_len) :
    Day05.get_min_seed_mapping_ranges seed_ranges map_arrays =
      Day05.get_min_seed_mapping_number (Day05.expand_ranges seed_ranges)
        map_arrays := by
  obtain ⟨hflens, hfcov⟩ := maps_fold_spec map_arrays hrows seed_ranges hlens
  obtain ⟨r0, rs0, rfl⟩ : ∃ r0 rs0, seed_ranges = r0 :: rs0 := by
    cases seed_ranges with
    | nil => exact absurd rfl hne
    | cons r0 rs0 => exact ⟨r0, rs0, rfl⟩
  have hcov0 : Day05.covers (r0 :: rs0) r0.1 := by
    refine ⟨r0, List.mem_cons_self r0 rs0, le_refl _, ?_⟩
    have := hlens r0 (List.mem_cons_self r0 rs0)
    omega
  have hfinal_cov :
      Day05.covers
        (map_arrays.foldl (fun cur m => Day05.apply_map_range m cur)
          (r0 :: rs0))
        (Day05.chain_apply map_arrays r0.1) :=
    (hfcov _).mpr ⟨r0.1, hcov0, rfl⟩
  obtain ⟨rf0, hrf0, _⟩ := hfinal_cov
  have hfne :
      (map_arrays.foldl (fun cur m => Day05.apply_map_range m cur)
          (r0 :: rs0)).map Prod.fst ≠ [] := by
    intro h
    rw [List.map_eq_nil_iff] at h
    rw [h] at hrf0
    exact absurd hrf0 (List.not_mem_nil rf0)
  have hexp : r0.1 ∈ Day05.expand_ranges (r0 :: rs0) :=
    (mem_expand_ranges _ _).mpr hcov0
  have hene :
      (Day05.expand_ranges (r0 :: rs0)).map
          (Day05.chain_apply map_arrays) ≠ [] := by
    intro h
    rw [List.map_eq_nil_iff] at h
    rw [h] at hexp
    exact absurd hexp (List.not_mem_nil r0.1)
  obtain ⟨vR, hvR, hvRmem, hvRle⟩ := min_fold_spec _ hfne
  obtain ⟨vN, hvN, hvNmem, hvNle⟩ := min_fold_spec _ hene
  rw [show Day05.get_min_seed_mapping_ranges (r0 :: rs0) map_arrays =
    Day05.min_fold
      ((map_arrays.foldl (fun cur m => Day05.apply_map_range m cur)
        (r0 :: rs0)).map Prod.fst) from rfl]
  rw [show Day05.get_min_seed_mapping_number
      (Day05.expand_ranges (r0 :: rs0)) map_arrays =
    Day05.min_fold ((Day05.expand_ranges (r0 :: rs0)).map
      (Day05.chain_apply map_arrays)) from rfl]
  rw [hvR, hvN]
  congr 1
  apply le_antisymm
  · -- vR ≤ vN: vN is a mapped value, so it lies in some final range
    obtain ⟨n, hn, hchain⟩ := List.mem_map.mp hvNmem
    have hcovN : Day05.covers
        (map_arrays.foldl (fun cur m => Day05.apply_map_range m cur)
          (r0 :: rs0)) vN :=
      (hfcov vN).mpr ⟨n, (mem_expand_ranges _ _).mp hn, hchain⟩
    obtain ⟨rf, hrf, hrfb⟩ := hcovN
    calc vR ≤ rf.1 := hvRle rf.1 (List.mem_map.mpr ⟨rf, hrf, rfl⟩)
      _ ≤ vN := hrfb.1
  · -- vN ≤ vR: vR is the start of a final range, hence a mapped value
    obtain ⟨rf, hrf, hrfeq⟩ := List.mem_map.mp hvRmem
    have hcovR : Day05.covers
        (map_arrays.foldl (fun cur m => Day05.apply_map_range m cur)
          (r0 :: rs0)) vR := by
      refine ⟨rf, hrf, ?_, ?_⟩
      · rw [hrfeq]
      · have := hflens rf hrf
        omega
    obtain ⟨n, hn, hchain⟩ := (hfcov vR).mp hcovR
    have : vN ≤ Day05.chain_apply map_arrays n :=
      hvNle _ (List.mem_map.mpr ⟨n, (mem_expand_ranges _ _).mpr hn, rfl⟩)
    rw [hchain] at this
    exact this

/-- Witness for C1 (amended) at the sample seed ranges and maps of the
day-5 puzzle statement. -/
theorem c1_range_number_agree_witness :
    (([((79 : Int), (14 : Int)), (55, 13)] : List (Int × Int)) ≠ [] ∧
      (∀ r ∈ ([((79 : Int), (14 : Int)), (55, 13)] : List (Int × Int)),
        1 ≤ r.2) ∧
      (∀ m ∈ [[Day05.MapRow.mk 50 98 2, Day05.MapRow.mk 52 50 48],
          [Day05.MapRow.mk 0 15 37, Day05.MapRow.mk 37 52 2,
            Day05.MapRow.mk 39 0 15]],
        ∀ row ∈ m, 1 ≤ row.range_len)) ∧
    Day05.get_min_seed_mapping_ranges [(79, 14), (55, 13)]
        [[Day05.MapRow.mk 50 98 2, Day05.MapRow.mk 52 50 48],
          [Day05.MapRow.mk 0 15 37, Day05.MapRow.mk 37 52 2,
            Day05.MapRow.mk 39 0 15]] =
      Day05.get_min_seed_mapping_number
        (Day05.expand_ranges [(79, 14), (55, 13)])
        [[Day05.MapRow.mk 50 98 2, Day05.MapRow.mk 52 50 48],
          [Day05.MapRow.mk 0 15 37, Day05.MapRow.mk 37 52 2,
            Day05.MapRow.mk 39 0 15]] :=
  ⟨⟨by decide, by decide, by decide⟩,
    c1_range_number_agree _ _ (by decide) (by decide) (by decide)⟩

/-- Counterexample to C1 as stated: a map row with `range_len = 0` makes
`apply_map_range` emit an empty mapped range whose start (here 0) wins the
final minimum, while number mode leaves every seed (3..7) unchanged and
returns 3. -/
theorem c1_counterexample :
    Day05.get_min_seed_mapping_ranges [(3, 5)] [[Day05.MapRow.mk 0 5 0]] =
        some 0 ∧
    Day05.get_min_seed_mapping_number (Day05.expand_ranges [(3, 5)])
        [[Day05.MapRow.mk 0 5 0]] = some 3 ∧
    Day05.get_min_seed_mapping_ranges [(3, 5)] [[Day05.MapRow.mk 0 5 0]] ≠
      Day05.get_min_seed_mapping_number (Day05.expand_ranges [(3, 5)])
        [[Day05.MapRow.mk 0 5 0]] := by
  refine ⟨by decide, by decide, by decide⟩

theorem map_lookup_of_mem_keys (network_map : Day08.NetworkMap) (s : String)
    (h : s ∈ Day08.map_keys network_map) :
    ∃ lr, Day08.map_lookup network_map s = some lr ∧
      lr.1 ∈ Day08.map_values network_map ∧
      lr.2 ∈ Day08.map_values network_map := by
  unfold Day08.map_keys at h
  obtain ⟨e, he, heq⟩ := List.mem_map.mp h
  have hfind : (network_map.find? (fun p => p.1 == s)).isSome := by
    rw [List.find?_isSome]
    exact ⟨e, he, by simp [heq]⟩
  obtain ⟨e2, he2⟩ := Option.isSome_iff_exists.mp hfind
  have he2mem : e2 ∈ network_map := List.mem_of_find?_eq_some he2
  refine ⟨e2.2, ?_, ?_, ?_⟩
  · unfold Day08.map_lookup
    rw [he2]
    rfl
  · unfold Day08.map_values
    rw [List.mem_flatMap]
    exact ⟨e2, he2mem, by simp⟩
  · unfold Day08.map_values
    rw [List.mem_flatMap]
    exact ⟨e2, he2mem, by simp⟩

theorem values_sub_keys (network_map : Day08.NetworkMap)
    (hclosed : Day08.closed_map network_map) :
    ∀ s ∈ Day08.map_values network_map, s ∈ Day08.map_keys network_map := by
  intro s hs
  unfold Day08.map_values at hs
  rw [List.mem_flatMap] at hs
  obtain ⟨e, he, hse⟩ := hs
  obtain ⟨h1, h2⟩ := hclosed e he
  rcases List.mem_cons.mp hse with h3 | h3
  · rw [h3]; exact h1
  · rcases List.mem_cons.mp h3 with h4 | h4
    · rw [h4]; exact h2
    · exact absurd h4 (List.not_mem_nil s)

theorem step_nodes_ok (network_map : Day08.NetworkMap) (c : Char) :
    ∀ cfg : List String, (∀ s ∈ cfg, s ∈ Day08.map_keys network_map) →
      ∃ next, Day08.step_nodes network_map c cfg = .ok next ∧
        (∀ s ∈ next, s ∈ Day08.map_values network_map) ∧
        next.length = cfg.length := by
  intro cfg
  induction cfg with
  | nil => intro _; exact ⟨[], rfl, by simp, rfl⟩
  | cons node rest ih =>
    intro hP
    obtain ⟨lr, hlr, hv1, hv2⟩ :=
      map_lookup_of_mem_keys network_map node
        (hP node (List.mem_cons_self node rest))
    obtain ⟨next2, hnext2, hvals, hlen⟩ :=
      ih (fun s hs => hP s (List.mem_cons_of_mem node hs))
    refine ⟨(if c = 'L' then lr.1 else lr.2) :: next2, ?_, ?_, ?_⟩
    · show Day08.step_nodes network_map c (node :: rest) = _
      unfold Day08.step_nodes
      rw [hlr, hnext2]
    · intro s hs
      rcases List.mem_cons.mp hs with h2 | h2
      · rw [h2]
        split <;> assumption
      · exact hvals s h2
    · simp [hlen]

theorem walk_cons (network_map : Day08.NetworkMap) (c : Char)
    (rest : List Char) (cfg : List String) :
    Day08.walk network_map (c :: rest) cfg =
      match Day08.step_nodes network_map c cfg with
      | .error _ => none
      | .ok next => Day08.walk network_map rest next := rfl

theorem walk_ok (network_map : Day08.NetworkMap)
    (hclosed : Day08.closed_map network_map) :
    ∀ (chars : List Char) (cfg : List String),
      (∀ s ∈ cfg, s ∈ Day08.map_keys network_map) →
      ∃ out, Day08.walk network_map chars cfg = some out ∧
        (∀ s ∈ out, s ∈ Day08.map_keys network_map) ∧
        out.length = cfg.length ∧
        (chars ≠ [] → ∀ s ∈ out, s ∈ Day08.map_values network_map) := by
  intro chars
  induction chars with
  | nil =>
    intro cfg hP
    exact ⟨cfg, rfl, hP, rfl, fun h => absurd rfl h⟩
  | cons c rest ih =>
    intro cfg hP
    obtain ⟨next, hnext, hvals, hlen⟩ := step_nodes_ok network_map c cfg hP
    have hPnext : ∀ s ∈ next, s ∈ Day08.map_keys network_map :=
      fun s hs => values_sub_keys network_map hclosed s (hvals s hs)
    obtain ⟨out, hout, hPout, hlenout, hvout⟩ := ih next hPnext
    refine ⟨out, ?_, hPout, by omega, ?_⟩
    · rw [walk_cons, hnext]
      exact hout
    · intro _ s hs
      cases rest with
      | nil =>
        have : out = next := by
          rw [show Day08.walk network_map [] next = some next from rfl] at hout
          exact (Option.some_inj.mp hout).symm
        rw [this] at hs
        exact hvals s hs
      | cons c2 rest2 => exact hvout (by simp) s hs

theorem go_path_one_spec (network_map : Day08.NetworkMap)
    (end_nodes : List String) (hclosed : Day08.closed_map network_map) :
    ∀ (chars : List Char) (cfg : List String),
      (∀ s ∈ cfg, s ∈ Day08.map_keys network_map) →
      ∃ next k, Day08.go_path_one network_map end_nodes chars cfg =
          .ok (next, k) ∧
        ((k < chars.length ∧ next = end_nodes ∧
          (∃ d, Day08.walk network_map (chars.take k) cfg = some d ∧
            ∀ s ∈ d, s ∈ end_nodes) ∧
          (∀ i < k, ¬ ∃ d, Day08.walk network_map (chars.take i) cfg = some d ∧
            ∀ s ∈ d, s ∈ end_nodes)) ∨
        (k = chars.length ∧ Day08.walk network_map chars cfg = some next ∧
          (∀ i < chars.length,
            ¬ ∃ d, Day08.walk network_map (chars.take i) cfg = some d ∧
              ∀ s ∈ d, s ∈ end_nodes))) := by
  intro chars
  induction chars with
  | nil =>
    intro cfg _
    refine ⟨cfg, 0, rfl, Or.inr ⟨rfl, rfl, ?_⟩⟩
    intro i hi
    simp at hi
  | cons c rest ih =>
    intro cfg hP
    by_cases hhit : ∀ n ∈ cfg, n ∈ end_nodes
    · refine ⟨end_nodes, 0, ?_, Or.inl ⟨by simp, rfl, ⟨cfg, rfl, hhit⟩, ?_⟩⟩
      · show Day08.go_path_one network_map end_nodes (c :: rest) cfg = _
        unfold Day08.go_path_one
        rw [if_pos hhit]
      · intro i hi
        omega
    · obtain ⟨next0, hnext0, hvals0, _⟩ := step_nodes_ok network_map c cfg hP
      have hP0 : ∀ s ∈ next0, s ∈ Day08.map_keys network_map :=
        fun s hs => values_sub_keys network_map hclosed s (hvals0 s hs)
      obtain ⟨next1, k1, hrec, hcase⟩ := ih next0 hP0
      have hshift : ∀ i, (∃ d,
          Day08.walk network_map ((c :: rest).take (i + 1)) cfg = some d ∧
            ∀ s ∈ d, s ∈ end_nodes) ↔
          (∃ d, Day08.walk network_map (rest.take i) next0 = some d ∧
            ∀ s ∈ d, s ∈ end_nodes) := by
        intro i
        rw [show (c :: rest).take (i + 1) = c :: rest.take i from rfl,
          walk_cons, hnext0]
      have hzero : ¬ ∃ d,
          Day08.walk network_map ((c :: rest).take 0) cfg = some d ∧
            ∀ s ∈ d, s ∈ end_nodes := by
        rintro ⟨d, hd, hsub⟩
        rw [show (c :: rest).take 0 = [] from rfl] at hd
        rw [show Day08.walk network_map [] cfg = some cfg from rfl] at hd
        rw [← Option.some_inj.mp hd] at hsub
        exact hhit hsub
      have hres : Day08.go_path_one network_map end_nodes (c :: rest) cfg =
          .ok (next1, k1 + 1) := by
        unfold Day08.go_path_one
        rw [if_neg hhit, hnext0]
        show (match Day08.go_path_one network_map end_nodes rest next0 with
          | .error e => (.error e : Except Day08.PyErr (List String × Nat))
          | .ok q => .ok (q.1, q.2 + 1)) = .ok (next1, k1 + 1)
        rw [hrec]
      rcases hcase with ⟨hk, hnext, hhitk, hmin⟩ | ⟨hk, hwalk, hmin⟩
      · refine ⟨next1, k1 + 1, hres, Or.inl ⟨by simp; omega, hnext, ?_, ?_⟩⟩
        · rw [hshift k1]
          exact hhitk
        · intro i hi
          cases i with
          | zero => exact hzero
          | succ i2 =>
            rw [hshift i2]
            exact hmin i2 (by omega)
      · refine ⟨next1, k1 + 1, hres, Or.inr ⟨by simp; omega, ?_, ?_⟩⟩
        · rw [show Day08.walk network_map (c :: rest) cfg =
            match Day08.step_nodes network_map c cfg with
            | .error _ => none
            | .ok next => Day08.walk network_map rest next from rfl, hnext0]
          exact hwalk
        · intro i hi
          cases i with
          | zero => exact hzero
          | succ i2 =>
            rw [hshift i2]
            exact hmin i2 (by simp at hi; omega)

theorem config_at_succ (network_map : Day08.NetworkMap) (path : List Char)
    (start : List String) (t : Nat) :
    Day08.config_at network_map path start (t + 1) =
      match Day08.config_at network_map path start t with
      | none => none
      | some cfg =>
        match Day08.step_nodes network_map
            (path.getD (t % path.length) 'L') cfg with
        | .error _ => none
        | .ok next => some next := rfl

theorem walk_append_single (network_map : Day08.NetworkMap) (c : Char) :
    ∀ (xs : List Char) (cfg : List String),
      Day08.walk network_map (xs ++ [c]) cfg =
        match Day08.walk network_map xs cfg with
        | none => none
        | some d =>
          match Day08.step_nodes network_map c d with
          | .error _ => none
          | .ok next => some next := by
  intro xs
  induction xs with
  | nil =>
    intro cfg
    show Day08.walk network_map [c] cfg = _
    dsimp only [Day08.walk]
  | cons x xs2 ih =>
    intro cfg
    rw [show (x :: xs2) ++ [c] = x :: (xs2 ++ [c]) from rfl, walk_cons,
      walk_cons]
    cases hs : Day08.step_nodes network_map x cfg
    · rfl
    · exact ih _

theorem take_succ_getD (path : List Char) (i : Nat) (hi : i < path.length) :
    path.take (i + 1) = path.take i ++ [path.getD i 'L'] := by
  rw [List.take_succ]
  congr 1
  rw [List.getElem?_eq_getElem hi]
  unfold List.getD
  rw [List.get?_eq_getElem?, List.getElem?_eq_getElem hi]
  rfl

theorem mod_shift (steps i L : Nat) (hmod : steps % L = 0) (hi : i < L) :
    (steps + i) % L = i := by
  obtain ⟨q, hq⟩ := Nat.dvd_of_mod_eq_zero hmod
  subst hq
  rw [Nat.mul_add_mod, Nat.mod_eq_of_lt hi]

theorem mod_congr_add (a b s L : Nat) (h : a % L = b % L) :
    (a + s) % L = (b + s) % L := by
  rw [Nat.add_mod, h, ← Nat.add_mod]

theorem config_at_walk (network_map : Day08.NetworkMap) (path : List Char)
    (start : List String) (steps : Nat) (cur : List String)
    (hmod : steps % path.length = 0)
    (hcfg : Day08.config_at network_map path start steps = some cur) :
    ∀ i, i ≤ path.length →
      Day08.config_at network_map path start (steps + i) =
        Day08.walk network_map (path.take i) cur := by
  intro i
  induction i with
  | zero =>
    intro _
    rw [show steps + 0 = steps from rfl, hcfg]
    rfl
  | succ i2 ih =>
    intro hle
    have hi2 : i2 < path.length := by omega
    have hmod2 : (steps + i2) % path.length = i2 := mod_shift _ _ _ hmod hi2
    rw [show steps + (i2 + 1) = (steps + i2) + 1 from rfl, config_at_succ,
      hmod2, ih (by omega), take_succ_getD path i2 hi2,
      walk_append_single]

theorem config_at_period (network_map : Day08.NetworkMap) (path : List Char)
    (start : List String) (a b : Nat)
    (heq : Day08.config_at network_map path start a =
      Day08.config_at network_map path start b)
    (hmod : a % path.length = b % path.length) :
    ∀ s, Day08.config_at network_map path start (a + s) =
      Day08.config_at network_map path start (b + s) := by
  intro s
  induction s with
  | zero => exact heq
  | succ s2 ih =>
    rw [show a + (s2 + 1) = (a + s2) + 1 from rfl,
      show b + (s2 + 1) = (b + s2) + 1 from rfl, config_at_succ,
      config_at_succ, ih, mod_congr_add a b s2 path.length hmod]

theorem hits_end_congr (network_map : Day08.NetworkMap) (path : List Char)
    (start end_nodes : List String) (t1 t2 : Nat)
    (h : Day08.config_at network_map path start t1 =
      Day08.config_at network_map path start t2) :
    Day08.hits_end network_map path start end_nodes t1 ↔
      Day08.hits_end network_map path start end_nodes t2 := by
  unfold Day08.hits_end
  rw [h]

theorem mem_lists_over (alphabet : List String) :
    ∀ (n : Nat) (l : List String),
      l ∈ Day08.lists_over alphabet n ↔
        l.length = n ∧ ∀ x ∈ l, x ∈ alphabet := by
  intro n
  induction n with
  | zero =>
    intro l
    show l ∈ [[]] ↔ _
    constructor
    · intro h
      rw [List.mem_singleton] at h
      subst h
      exact ⟨rfl, by simp⟩
    · rintro ⟨hl, _⟩
      rw [List.length_eq_zero] at hl
      subst hl
      exact List.mem_singleton.mpr rfl
  | succ n2 ih =>
    intro l
    show l ∈ alphabet.flatMap _ ↔ _
    rw [List.mem_flatMap]
    constructor
    · rintro ⟨a, ha, hl⟩
      rw [List.mem_map] at hl
      obtain ⟨t, ht, rfl⟩ := hl
      obtain ⟨htl, hta⟩ := (ih t).mp ht
      refine ⟨by simp [htl], ?_⟩
      intro x hx
      rcases List.mem_cons.mp hx with h2 | h2
      · rw [h2]; exact ha
      · exact hta x h2
    · rintro ⟨hl, hmem⟩
      cases l with
      | nil => simp at hl
      | cons x t =>
        refine ⟨x, hmem x (List.mem_cons_self x t), ?_⟩
        rw [List.mem_map]
        refine ⟨t, (ih t).mpr ⟨by simpa using hl, ?_⟩, rfl⟩
        intro y hy
        exact hmem y (List.mem_cons_of_mem x hy)

theorem getD_append_lt (a b : List (List String)) (d : List String) :
    ∀ q, q < a.length → (a ++ b).getD q d = a.getD q d := by
  induction a with
  | nil => intro q hq; simp at hq
  | cons x t ih =>
    intro q hq
    cases q with
    | zero => rfl
    | succ q2 =>
      show (t ++ b).getD q2 d = t.getD q2 d
      exact ih q2 (by simpa using hq)

theorem getD_append_len (x d : List String) :
    ∀ a : List (List String), (a ++ [x]).getD a.length d = x := by
  intro a
  induction a with
  | nil => rfl
  | cons y t ih => exact ih

theorem getD_mem_of_lt (a : List (List String)) (d : List String) :
    ∀ q, q < a.length → a.getD q d ∈ a := by
  induction a with
  | nil => intro q hq; simp at hq
  | cons x t ih =>
    intro q hq
    cases q with
    | zero => exact List.mem_cons_self x t
    | succ q2 =>
      exact List.mem_cons_of_mem x (ih q2 (by simpa using hq))

theorem mem_getD (a : List (List String)) (e : List String) (d : List String)
    (h : e ∈ a) : ∃ q, q < a.length ∧ a.getD q d = e := by
  induction a with
  | nil => exact absurd h (List.not_mem_nil e)
  | cons x t ih =>
    rcases List.mem_cons.mp h with h2 | h2
    · exact ⟨0, by simp, h2.symm⟩
    · obtain ⟨q, hq, he⟩ := ih h2
      exact ⟨q + 1, by simpa using hq, he⟩

theorem go_path_go_at_end (network_map : Day08.NetworkMap)
    (path : List Char) (end_nodes : List String) (fuel : Nat)
    (seen : List (List String)) (cur : List String) (steps : Nat)
    (hc : ∀ n ∈ cur, n ∈ end_nodes) :
    Day08.go_path_go network_map path end_nodes fuel seen cur steps =
      some (.ok steps) := by
  unfold Day08.go_path_go
  rw [if_pos hc]

theorem go_path_go_zero (network_map : Day08.NetworkMap) (path : List Char)
    (end_nodes : List String) (seen : List (List String))
    (cur : List String) (steps : Nat) (hc : ¬ ∀ n ∈ cur, n ∈ end_nodes) :
    Day08.go_path_go network_map path end_nodes 0 seen cur steps = none := by
  unfold Day08.go_path_go
  rw [if_neg hc]

theorem go_path_go_succ (network_map : Day08.NetworkMap) (path : List Char)
    (end_nodes : List String) (fuel : Nat) (seen : List (List String))
    (cur : List String) (steps : Nat) (hc : ¬ ∀ n ∈ cur, n ∈ end_nodes) :
    Day08.go_path_go network_map path end_nodes (fuel + 1) seen cur steps =
      match Day08.go_path_one network_map end_nodes path cur with
      | .error e => some (.error e)
      | .ok q =>
        if q.1 ∈ seen then some (.error .valueError)
        else
          Day08.go_path_go network_map path end_nodes fuel (seen ++ [q.1])
            q.1 (steps + q.2) := by
  simp only [Day08.go_path_go]
  rw [if_neg hc]

theorem go_path_go_mono (network_map : Day08.NetworkMap) (path : List Char)
    (end_nodes : List String) :
    ∀ (f1 f2 : Nat) (seen : List (List String)) (cur : List String)
      (steps : Nat) (r : Except Day08.PyErr Nat), f1 ≤ f2 →
      Day08.go_path_go network_map path end_nodes f1 seen cur steps =
        some r →
      Day08.go_path_go network_map path end_nodes f2 seen cur steps =
        some r := by
  intro f1
  induction f1 with
  | zero =>
    intro f2 seen cur steps r _ h1
    by_cases hc : ∀ n ∈ cur, n ∈ end_nodes
    · rw [go_path_go_at_end _ _ _ _ _ _ _ hc] at h1 ⊢
      exact h1
    · rw [go_path_go_zero _ _ _ _ _ _ hc] at h1
      exact Option.noConfusion h1
  | succ f1p ih =>
    intro f2 seen cur steps r hle h1
    by_cases hc : ∀ n ∈ cur, n ∈ end_nodes
    · rw [go_path_go_at_end _ _ _ _ _ _ _ hc] at h1 ⊢
      exact h1
    · obtain ⟨f2p, rfl⟩ : ∃ f2p, f2 = f2p + 1 := ⟨f2 - 1, by omega⟩
      rw [go_path_go_succ _ _ _ _ _ _ _ hc] at h1 ⊢
      cases hone : Day08.go_path_one network_map end_nodes path cur with
      | error e =>
        rw [hone] at h1
        exact h1
      | ok q =>
        rw [hone] at h1
        dsimp only at h1 ⊢
        by_cases hmem : q.1 ∈ seen
        · rw [if_pos hmem] at h1 ⊢
          exact h1
        · rw [if_neg hmem] at h1 ⊢
          exact ih f2p _ _ _ r (by omega) h1

theorem no_hits_forever (network_map : Day08.NetworkMap) (path : List Char)
    (start end_nodes : List String) (q len : Nat) (hq : q < len)
    (hL : 1 ≤ path.length)
    (hper : ∀ s, Day08.config_at network_map path start (q * path.length + s) =
      Day08.config_at network_map path start (len * path.length + s))
    (hbelow : ∀ t < len * path.length,
      ¬ Day08.hits_end network_map path start end_nodes t) :
    ∀ T, ¬ Day08.hits_end network_map path start end_nodes T := by
  intro T
  induction T using Nat.strong_induction_on with
  | _ T ihT =>
    by_cases hT : T < len * path.length
    · exact hbelow T hT
    · intro hhit
      obtain ⟨s, rfl⟩ : ∃ s, T = len * path.length + s :=
        ⟨T - len * path.length, by omega⟩
      have hhit2 : Day08.hits_end network_map path start end_nodes
          (q * path.length + s) :=
        (hits_end_congr _ _ _ _ _ _ (hper s)).mpr hhit
      have hlt : q * path.length + s < len * path.length + s := by
        have := Nat.mul_lt_mul_of_lt_of_le hq (le_refl path.length)
          (by omega)
        omega
      exact ihT _ hlt hhit2

theorem go_path_go_spec (network_map : Day08.NetworkMap) (path : List Char)
    (start end_nodes : List String)
    (hclosed : Day08.closed_map network_map) (hpath : path ≠ []) :
    ∀ (n : Nat) (seen : List (List String)) (cur : List String) (steps : Nat),
      (start :: end_nodes ::
          Day08.lists_over (Day08.map_values network_map)
            start.length).length < seen.length + n →
      (∀ e ∈ seen, e ∈ start :: end_nodes ::
        Day08.lists_over (Day08.map_values network_map) start.length) →
      seen.Nodup →
      steps = (seen.length - 1) * path.length →
      1 ≤ seen.length →
      Day08.config_at network_map path start steps = some cur →
      (∀ t < steps, ¬ Day08.hits_end network_map path start end_nodes t) →
      (∀ s ∈ cur, s ∈ Day08.map_keys network_map) →
      cur.length = start.length →
      (∀ q, q < seen.length →
        Day08.config_at network_map path start (q * path.length) =
          some (seen.getD q [])) →
      (∀ e ∈ seen, (∀ s ∈ e, s ∈ end_nodes) → e = cur) →
      ∃ r, Day08.go_path_go network_map path end_nodes n seen cur steps =
          some r ∧
        ((∃ h : (∃ t, Day08.hits_end network_map path start end_nodes t),
            r = .ok (Nat.find h)) ∨
         ((¬ ∃ t, Day08.hits_end network_map path start end_nodes t) ∧
            r = .error .valueError)) := by
  intro n
  induction n with
  | zero =>
    intro seen cur steps hcard hsub hnodup _ _ _ _ _ _ _ _
    exfalso
    have hle : seen.length ≤ (start :: end_nodes ::
        Day08.lists_over (Day08.map_values network_map)
          start.length).length :=
      (hnodup.subperm hsub).length_le
    omega
  | succ n2 ih =>
    intro seen cur steps hcard hsub hnodup hsteps hlen1 hcfg hnohit hkeys
      hculen hidx hended
    by_cases hc : ∀ n3 ∈ cur, n3 ∈ end_nodes
    · rw [go_path_go_at_end _ _ _ _ _ _ _ hc]
      have hh : Day08.hits_end network_map path start end_nodes steps :=
        ⟨cur, hcfg, hc⟩
      have hex : ∃ t, Day08.hits_end network_map path start end_nodes t :=
        ⟨steps, hh⟩
      refine ⟨.ok steps, rfl, Or.inl ⟨hex, ?_⟩⟩
      have hfind : Nat.find hex = steps :=
        (Nat.find_eq_iff hex).mpr ⟨hh, fun t ht => hnohit t ht⟩
      rw [hfind]
    · have hL : 1 ≤ path.length := List.length_pos.mpr hpath
      have hmod : steps % path.length = 0 := by
        rw [hsteps]
        exact Nat.mul_mod_left _ _
      have hbridge := config_at_walk network_map path start steps cur hmod hcfg
      have hconv : ∀ i, i ≤ path.length →
          (Day08.hits_end network_map path start end_nodes (steps + i) ↔
            ∃ d, Day08.walk network_map (path.take i) cur = some d ∧
              ∀ s ∈ d, s ∈ end_nodes) := by
        intro i hi
        unfold Day08.hits_end
        rw [hbridge i hi]
      have hsteplen : steps + path.length = seen.length * path.length := by
        obtain ⟨lm, hlm⟩ : ∃ lm, seen.length = lm + 1 :=
          ⟨seen.length - 1, by omega⟩
        rw [hsteps, hlm]
        rw [show lm + 1 - 1 = lm from rfl, Nat.succ_mul]
      rw [go_path_go_succ _ _ _ _ _ _ _ hc]
      obtain ⟨next, k, hone, hcase⟩ :=
        go_path_one_spec network_map end_nodes hclosed path cur hkeys
      rw [hone]
      dsimp only
      rcases hcase with ⟨hk, hnext, hhitk, hminrel⟩ | ⟨hk, hwalk, hminrel⟩
      · -- the pass hits the end configuration after k steps
        rw [hnext]
        have hnotmem : end_nodes ∉ seen := by
          intro hmem
          have he := hended end_nodes hmem (fun s hs => hs)
          rw [he] at hc
          exact hc (fun s hs => hs)
        rw [if_neg hnotmem,
          go_path_go_at_end _ _ _ _ _ _ _ (fun s hs => hs)]
        have hh : Day08.hits_end network_map path start end_nodes
            (steps + k) := (hconv k (by omega)).mpr hhitk
        have hex : ∃ t, Day08.hits_end network_map path start end_nodes t :=
          ⟨steps + k, hh⟩
        refine ⟨.ok (steps + k), rfl, Or.inl ⟨hex, ?_⟩⟩
        have hfind : Nat.find hex = steps + k := by
          rw [Nat.find_eq_iff hex]
          refine ⟨hh, ?_⟩
        -- no earlier hit
          intro t ht
          by_cases h2 : t < steps
          · exact hnohit t h2
          · obtain ⟨i, rfl⟩ : ∃ i, t = steps + i := ⟨t - steps, by omega⟩
            have hik : i < k := by omega
            intro hhit
            exact hminrel i hik ((hconv i (by omega)).mp hhit)
        rw [hfind]
      · -- the pass completes without a hit
        subst hk
        have hnextcfg : Day08.config_at network_map path start
            (steps + path.length) = some next := by
          rw [hbridge path.length le_rfl, List.take_length]
          exact hwalk
        obtain ⟨out, hout, houtkeys, houtlen, houtvals⟩ :=
          walk_ok network_map hclosed path cur hkeys
        have hout_next : out = next := by
          rw [hout] at hwalk
          exact Option.some_inj.mp hwalk
        subst hout_next
        have hbelow : ∀ t < steps + path.length,
            ¬ Day08.hits_end network_map path start end_nodes t := by
          intro t ht
          by_cases h2 : t < steps
          · exact hnohit t h2
          · obtain ⟨i, rfl⟩ : ∃ i, t = steps + i := ⟨t - steps, by omega⟩
            have hik : i < path.length := by omega
            intro hhit
            exact hminrel i hik ((hconv i (by omega)).mp hhit)
        by_cases hmem : out ∈ seen
        · rw [if_pos hmem]
          obtain ⟨qq, hqq, hqe⟩ := mem_getD seen out [] hmem
          have hq_cfg : Day08.config_at network_map path start
              (qq * path.length) = some out := by
            rw [hidx qq hqq, hqe]
          have hper := config_at_period network_map path start
            (qq * path.length) (seen.length * path.length)
            (by rw [hq_cfg, ← hsteplen, hnextcfg])
            (by rw [Nat.mul_mod_left, Nat.mul_mod_left])
          have hforever := no_hits_forever network_map path start end_nodes
            qq seen.length hqq hL hper (by rw [← hsteplen]; exact hbelow)
          exact ⟨.error .valueError, rfl,
            Or.inr ⟨fun ⟨t, ht⟩ => hforever t ht, rfl⟩⟩
        · rw [if_neg hmem]
          have houtvals2 := houtvals hpath
          apply ih (seen ++ [out]) out (steps + path.length)
          · rw [List.length_append]
            simp only [List.length_singleton]
            omega
          · intro e he
            rcases List.mem_append.mp he with h2 | h2
            · exact hsub e h2
            · rw [List.mem_singleton.mp h2]
              refine List.mem_cons_of_mem _ (List.mem_cons_of_mem _ ?_)
              rw [mem_lists_over]
              exact ⟨by omega, houtvals2⟩
          · rw [List.nodup_append]
            refine ⟨hnodup, List.nodup_singleton out, ?_⟩
            intro e he he2
            rw [List.mem_singleton.mp he2] at he
            exact hmem he
          · rw [List.length_append]
            simp only [List.length_singleton]
            rw [show seen.length + 1 - 1 = seen.length from rfl, ← hsteplen]
          · rw [List.length_append]
            omega
          · exact hnextcfg
          · exact hbelow
          · exact houtkeys
          · omega
          · intro q hq
            rw [List.length_append, List.length_singleton] at hq
            by_cases h2 : q < seen.length
            · rw [getD_append_lt seen [out] [] q h2]
              exact hidx q h2
            · have hq2 : q = seen.length := by omega
              subst hq2
              rw [getD_append_len, ← hsteplen]
              exact hnextcfg
          · intro e he hesub
            rcases List.mem_append.mp he with h2 | h2
            · have := hended e h2 hesub
              rw [this] at hesub
              exact absurd hesub hc
            · exact List.mem_singleton.mp h2

/-- C3 (amended): on a closed map with start nodes among the keys and a
non-empty instruction path, `go_path` (run with enough fuel) either
returns the number of steps after which the simultaneously-followed
configuration first lies inside the end-node set, or raises `ValueError`
exactly when that never happens. -/
theorem c3_go_path_loop (network_map : Day08.NetworkMap) (path : List Char)
    (start end_nodes : List String) (hclosed : Day08.closed_map network_map)
    (hstart : ∀ s ∈ start, s ∈ Day08.map_keys network_map)
    (hpath : path ≠ []) :
    ∃ fuel r, Day08.go_path fuel path network_map start end_nodes =
        some r ∧
      ((∃ h : (∃ t, Day08.hits_end network_map path start end_nodes t),
          r = .ok (Nat.find h)) ∨
       ((¬ ∃ t, Day08.hits_end network_map path start end_nodes t) ∧
          r = .error .valueError)) := by
  obtain ⟨r, hr, hcase⟩ :=
    go_path_go_spec network_map path start end_nodes hclosed hpath
      (start :: end_nodes ::
        Day08.lists_over (Day08.map_values network_map)
          start.length).length
      [start] start 0
      (by simp)
      (by intro e he; rw [List.mem_singleton.mp he];
          exact List.mem_cons_self _ _)
      (List.nodup_singleton start)
      (by simp)
      (by simp)
      rfl
      (by intro t ht; omega)
      hstart
      rfl
      (by intro q hq
          simp only [List.length_singleton] at hq
          have hq0 : q = 0 := by omega
          subst hq0
          rw [Nat.zero_mul]
          rfl)
      (by intro e he _; exact List.mem_singleton.mp he)
  exact ⟨_, r, hr, hcase⟩

/-- Witness for C3 (amended) on a two-node closed map where the end node
is reached after one step. -/
theorem c3_go_path_loop_witness :
    (Day08.closed_map [("AAA", "BBB", "BBB"), ("BBB", "AAA", "AAA")] ∧
      (∀ s ∈ ["AAA"],
        s ∈ Day08.map_keys [("AAA", "BBB", "BBB"), ("BBB", "AAA", "AAA")]) ∧
      (['L'] : List Char) ≠ []) ∧
    (∃ fuel r, Day08.go_path fuel ['L']
        [("AAA", "BBB", "BBB"), ("BBB", "AAA", "AAA")] ["AAA"] ["BBB"] =
          some r ∧
      ((∃ h : (∃ t, Day08.hits_end
            [("AAA", "BBB", "BBB"), ("BBB", "AAA", "AAA")] ['L'] ["AAA"]
            ["BBB"] t), r = .ok (Nat.find h)) ∨
       ((¬ ∃ t, Day08.hits_end
            [("AAA", "BBB", "BBB"), ("BBB", "AAA", "AAA")] ['L'] ["AAA"]
            ["BBB"] t) ∧ r = .error .valueError))) :=
  ⟨⟨by decide, by decide, by decide⟩,
    c3_go_path_loop [("AAA", "BBB", "BBB"), ("BBB", "AAA", "AAA")] ['L']
      ["AAA"] ["BBB"] (by decide) (by decide) (by decide)⟩

/-- C10 (amended): on a closed map, `go_path` terminates for every path
and every start and end list: with enough fuel it produces a result, a
step count or the `ValueError` of the loop detection (a start node that
is not a key instead yields the uncaught `KeyError`; that case is
excluded here by requiring the start nodes to be keys). -/
theorem c10_go_path_terminates (network_map : Day08.NetworkMap)
    (path : List Char) (start end_nodes : List String)
    (hclosed : Day08.closed_map network_map)
    (hstart : ∀ s ∈ start, s ∈ Day08.map_keys network_map) :
    ∃ fuel, (∃ k, Day08.go_path fuel path network_map start end_nodes =
        some (.ok k)) ∨
      Day08.go_path fuel path network_map start end_nodes =
        some (.error .valueError) := by
  by_cases hpath : path = []
  · subst hpath
    by_cases hc : ∀ s ∈ start, s ∈ end_nodes
    · exact ⟨0, Or.inl ⟨0, go_path_go_at_end _ _ _ _ _ _ _ hc⟩⟩
    · refine ⟨1, Or.inr ?_⟩
      show Day08.go_path_go network_map [] end_nodes 1 [start] start 0 = _
      rw [go_path_go_succ _ _ _ _ _ _ _ hc,
        show Day08.go_path_one network_map end_nodes [] start =
          .ok (start, 0) from rfl]
      dsimp only
      rw [if_pos (List.mem_singleton.mpr rfl)]
  · obtain ⟨r, hr, hcase⟩ :=
      go_path_go_spec network_map path start end_nodes hclosed hpath
        (start :: end_nodes ::
          Day08.lists_over (Day08.map_values network_map)
            start.length).length
        [start] start 0
        (by simp)
        (by intro e he; rw [List.mem_singleton.mp he];
            exact List.mem_cons_self _ _)
        (List.nodup_singleton start)
        (by simp)
        (by simp)
        rfl
        (by intro t ht; omega)
        hstart
        rfl
        (by intro q hq
            simp only [List.length_singleton] at hq
            have hq0 : q = 0 := by omega
            subst hq0
            rw [Nat.zero_mul]
            rfl)
        (by intro e he _; exact List.mem_singleton.mp he)
    rcases hcase with ⟨hex, hr2⟩ | ⟨hnone, hr2⟩
    · exact ⟨_, Or.inl ⟨Nat.find hex, by rw [← hr2]; exact hr⟩⟩
    · exact ⟨_, Or.inr (by rw [← hr2]; exact hr)⟩

/-- Witness for C10 (amended) on a closed one-node map with the empty
path. -/
theorem c10_go_path_terminates_witness :
    (Day08.closed_map [("AAA", "AAA", "AAA")] ∧
      (∀ s ∈ ["AAA"], s ∈ Day08.map_keys [("AAA", "AAA", "AAA")])) ∧
    (∃ fuel, (∃ k, Day08.go_path fuel [] [("AAA", "AAA", "AAA")] ["AAA"]
        ["ZZZ"] = some (.ok k)) ∨
      Day08.go_path fuel [] [("AAA", "AAA", "AAA")] ["AAA"] ["ZZZ"] =
        some (.error .valueError)) :=
  ⟨⟨by decide, by decide⟩,
    c10_go_path_terminates [("AAA", "AAA", "AAA")] [] ["AAA"] ["ZZZ"]
      (by decide) (by decide)⟩

/-- Counterexample to C3 as stated: on a map that is not closed (the
value node "BBB" is not a key), `go_path` neither returns a step count
nor raises `ValueError` — the lookup of "BBB" raises an uncaught
`KeyError` instead, for every amount of fuel. -/
theorem c3_counterexample :
    ¬ ∃ fuel,
      ((∃ k, Day08.go_path fuel ['L'] [("AAA", "BBB", "BBB")] ["AAA"]
          ["ZZZ"] = some (.ok k)) ∨
        Day08.go_path fuel ['L'] [("AAA", "BBB", "BBB")] ["AAA"]
          ["ZZZ"] = some (.error .valueError)) := by
  have h0 : Day08.go_path 0 ['L'] [("AAA", "BBB", "BBB")] ["AAA"]
      ["ZZZ"] = none := rfl
  have h1 : Day08.go_path 1 ['L'] [("AAA", "BBB", "BBB")] ["AAA"]
      ["ZZZ"] = none := rfl
  have h2 : ∀ f, Day08.go_path (f + 2) ['L'] [("AAA", "BBB", "BBB")]
      ["AAA"] ["ZZZ"] = some (.error .keyError) := by
    intro f
    show Day08.go_path_go [("AAA", "BBB", "BBB")] ['L'] ["ZZZ"] (f + 2)
      [["AAA"]] ["AAA"] 0 = _
    rw [show f + 2 = (f + 1) + 1 from rfl,
      go_path_go_succ _ _ _ _ _ _ _ (by decide),
      show Day08.go_path_one [("AAA", "BBB", "BBB")] ["ZZZ"] ['L']
        ["AAA"] = .ok (["BBB"], 1) from rfl]
    dsimp only
    rw [if_neg (by decide),
      go_path_go_succ _ _ _ _ _ _ _ (by decide),
      show Day08.go_path_one [("AAA", "BBB", "BBB")] ["ZZZ"] ['L']
        ["BBB"] = .error .keyError from rfl]
  rintro ⟨fuel, hcase⟩
  have key : Day08.go_path fuel ['L'] [("AAA", "BBB", "BBB")] ["AAA"]
        ["ZZZ"] = none ∨
      Day08.go_path fuel ['L'] [("AAA", "BBB", "BBB")] ["AAA"]
        ["ZZZ"] = some (.error .keyError) := by
    rcases fuel with _ | _ | f
    · exact Or.inl h0
    · exact Or.inl h1
    · exact Or.inr (h2 f)
  rcases key with hnone | hkey
  · rcases hcase with ⟨k, hk⟩ | hk <;> rw [hnone] at hk <;> simp at hk
  · rcases hcase with ⟨k, hk⟩ | hk <;> rw [hkey] at hk <;> simp at hk

/-- Counterexample to C10 as stated: the map [("AAA", "AAA", "AAA")] is
closed, but with the start node "BBB" absent from the keys `go_path`
raises an uncaught `KeyError` for every amount of fuel — it neither
returns a step count nor raises `ValueError`. -/
theorem c10_counterexample :
    Day08.closed_map [("AAA", "AAA", "AAA")] ∧
    ¬ ∃ fuel,
      ((∃ k, Day08.go_path fuel ['L'] [("AAA", "AAA", "AAA")] ["BBB"]
          ["ZZZ"] = some (.ok k)) ∨
        Day08.go_path fuel ['L'] [("AAA", "AAA", "AAA")] ["BBB"]
          ["ZZZ"] = some (.error .valueError)) := by
  refine ⟨by decide, ?_⟩
  have h0 : Day08.go_path 0 ['L'] [("AAA", "AAA", "AAA")] ["BBB"]
      ["ZZZ"] = none := rfl
  have h1 : ∀ f, Day08.go_path (f + 1) ['L'] [("AAA", "AAA", "AAA")]
      ["BBB"] ["ZZZ"] = some (.error .keyError) := by
    intro f
    show Day08.go_path_go [("AAA", "AAA", "AAA")] ['L'] ["ZZZ"] (f + 1)
      [["BBB"]] ["BBB"] 0 = _
    rw [go_path_go_succ _ _ _ _ _ _ _ (by decide),
      show Day08.go_path_one [("AAA", "AAA", "AAA")] ["ZZZ"] ['L']
        ["BBB"] = .error .keyError from rfl]
  rintro ⟨fuel, hcase⟩
  have key : Day08.go_path fuel ['L'] [("AAA", "AAA", "AAA")] ["BBB"]
        ["ZZZ"] = none ∨
      Day08.go_path fuel ['L'] [("AAA", "AAA", "AAA")] ["BBB"]
        ["ZZZ"] = some (.error .keyError) := by
    rcases fuel with _ | f
    · exact Or.inl h0
    · exact Or.inr (h1 f)
  rcases key with hnone | hkey
  · rcases hcase with ⟨k, hk⟩ | hk <;> rw [hnone] at hk <;> simp at hk
  · rcases hcase with ⟨k, hk⟩ | hk <;> rw [hkey] at hk <;> simp at hk
